import Mathlib

/-!
Verification of the kombiner placement-request engine against its
specification.  The definitions below are a shallow embedding of the Go
sources: `pkg/apis/v1alpha1/types.go` (data model),
`pkg/placementrequests/v1alpha1/placementrequests.go` (status helpers),
`pkg/controller/controller.go` (dispatch, admission, rejection),
`pkg/queue` (priority queue, round-robin and uniform readers, iterator).
Machine integers are modelled as `Nat`/`Int` with explicit wrap-around
where the code can overflow, and the `float64` arithmetic used by
`NewRoundRobinReader` is modelled by exact round-to-nearest-even
rationals represented as numerator/denominator pairs.
-/

/-! ## Data model: `pkg/apis/v1alpha1/types.go` -/

/-- `PlacementRequestResult` enum.  The Go constant
`PlacementRequestResultPartialSuccess` is rendered `partSuccess`. -/
inductive PlacementRequestResult where
  | unknown
  | success
  | failure
  | partSuccess
  | rejected
deriving DecidableEq, Repr

/-- `PlacementRequestPolicy` enum. -/
inductive PlacementRequestPolicy where
  | lenient
  | allOrNothing
deriving DecidableEq, Repr

/-- A single `{podName, podUID, nodeName}` binding. -/
structure Binding where
  podName : String
  podUID : String
  nodeName : String
deriving DecidableEq, Repr

/-- `PlacementRequestBindingResult`: one entry of `status.bindings`. -/
structure PlacementRequestBindingResult where
  binding : Binding
  result : PlacementRequestResult
  reason : String
  message : String
deriving DecidableEq, Repr

/-- `PlacementRequestSpec`. -/
structure PlacementRequestSpec where
  policy : PlacementRequestPolicy
  priority : Int
  schedulerName : String
  bindings : List Binding
deriving DecidableEq, Repr

/-- `PlacementRequestStatus`. -/
structure PlacementRequestStatus where
  result : PlacementRequestResult
  reason : String
  message : String
  bindings : List PlacementRequestBindingResult
deriving DecidableEq, Repr

/-- `PlacementRequest`.  `creationTimestamp` is kept directly as the Unix
nanosecond value that `Priority()` extracts; `deletionTimestamp` is `none`
for the zero tombstone. -/
structure PlacementRequest where
  name : String
  namespace' : String
  creationTimestamp : Int
  deletionTimestamp : Option Int
  spec : PlacementRequestSpec
  status : PlacementRequestStatus
deriving DecidableEq, Repr

instance : Inhabited PlacementRequest :=
  ⟨{ name := "", namespace' := "", creationTimestamp := 0,
     deletionTimestamp := none,
     spec := { policy := .lenient, priority := 0, schedulerName := "",
               bindings := [] },
     status := { result := .unknown, reason := "", message := "",
                 bindings := [] } }⟩

/-- `PrioritizedPlacementRequest.Priority`: the creation timestamp in
nanoseconds (`pkg/queue/prioritized.go`). -/
def Priority (pr : PlacementRequest) : Int :=
  pr.creationTimestamp

/-! ## Status helpers: `pkg/placementrequests/v1alpha1/placementrequests.go` -/

/-- `Validate`: `some errmsg` models a returned error, `none` success. -/
def Validate (pr : PlacementRequest) : Option String :=
  if pr.spec.bindings.length = 0 then
    some "the placement request has no bindings"
  else if pr.spec.policy ≠ PlacementRequestPolicy.lenient then
    some "unsupported policy"
  else
    none

/-- The inner loop of `SetPodBindingResult`: replace the entry whose
`podUID` matches, keyed exactly as the Go range loop does. -/
def setBindingEntry (entries : List PlacementRequestBindingResult)
    (bind : Binding) (result : PlacementRequestResult)
    (reason msg : String) : List PlacementRequestBindingResult :=
  match entries with
  | [] => [{ binding := bind, result := result, reason := reason, message := msg }]
  | b :: rest =>
    if b.binding.podUID = bind.podUID then
      { binding := bind, result := result, reason := reason, message := msg } :: rest
    else
      b :: setBindingEntry rest bind result reason msg

/-- `SetPodBindingResult`. -/
def SetPodBindingResult (pr : PlacementRequest) (bind : Binding)
    (result : PlacementRequestResult) (reason msg : String) : PlacementRequest :=
  { pr with status :=
      { pr.status with bindings := setBindingEntry pr.status.bindings bind result reason msg } }

/-- `SetPodBindingFailure`. -/
def SetPodBindingFailure (pr : PlacementRequest) (bind : Binding)
    (reason msg : String) : PlacementRequest :=
  SetPodBindingResult pr bind .failure reason msg

/-- `SetPodBindingSuccess`. -/
def SetPodBindingSuccess (pr : PlacementRequest) (bind : Binding)
    (reason msg : String) : PlacementRequest :=
  SetPodBindingResult pr bind .success reason msg

/-- The success counting loop of `AssessResult`. -/
def countSuccesses (entries : List PlacementRequestBindingResult) : Nat :=
  match entries with
  | [] => 0
  | b :: rest =>
    (if b.result = PlacementRequestResult.success then 1 else 0) + countSuccesses rest

/-- `AssessResult`: result and human readable message. -/
def AssessResult (pr : PlacementRequest) : PlacementRequestResult × String :=
  if pr.status.bindings.length = 0 then
    (.rejected, "No bindings")
  else
    let successes := countSuccesses pr.status.bindings
    if successes = 0 then
      (.failure, "All bindings failed")
    else if successes = pr.status.bindings.length then
      (.success, "All bindings succeeded")
    else
      (.partSuccess, Nat.repr successes ++ " of " ++
        Nat.repr pr.status.bindings.length ++ " bindings succeeded")

/-- Modelled from the spec: the pure count-based outcome table that claim
C2 asserts `AssessResult` implements.  `k` is the number of `Success`
entries and `n` the total number of status bindings. -/
def assessBySpec (k n : Nat) : PlacementRequestResult × String :=
  if n = 0 then (.rejected, "No bindings")
  else if k = 0 then (.failure, "All bindings failed")
  else if k = n then (.success, "All bindings succeeded")
  else (.partSuccess, Nat.repr k ++ " of " ++ Nat.repr n ++ " bindings succeeded")

/-! ## C2: AssessResult depends only on the Success count -/

theorem countSuccesses_le (entries : List PlacementRequestBindingResult) :
    countSuccesses entries ≤ entries.length := by
  induction entries with
  | nil => simp [countSuccesses]
  | cons b rest ih =>
    simp only [countSuccesses, List.length_cons]
    split <;> omega

/-- C2: `AssessResult` depends only on the count of `Success` entries in
`status.bindings` and on their total number: empty list gives `Rejected`
with message "No bindings"; zero successes give `Failure`; all successes
give `Success`; otherwise `PartialSuccess` with message exactly
`"<k> of <n> bindings succeeded"`. -/
theorem assessResult_by_counts (pr : PlacementRequest) :
    AssessResult pr =
      assessBySpec (countSuccesses pr.status.bindings) pr.status.bindings.length
    ∧ (pr.status.bindings.length = 0 →
        AssessResult pr = (.rejected, "No bindings"))
    ∧ (pr.status.bindings.length ≠ 0 → countSuccesses pr.status.bindings = 0 →
        (AssessResult pr).1 = .failure)
    ∧ (pr.status.bindings.length ≠ 0 →
        countSuccesses pr.status.bindings = pr.status.bindings.length →
        (AssessResult pr).1 = .success)
    ∧ (pr.status.bindings.length ≠ 0 → countSuccesses pr.status.bindings ≠ 0 →
        countSuccesses pr.status.bindings ≠ pr.status.bindings.length →
        AssessResult pr = (.partSuccess,
          Nat.repr (countSuccesses pr.status.bindings) ++ " of " ++
          Nat.repr pr.status.bindings.length ++ " bindings succeeded")) := by
  refine ⟨rfl, ?_, ?_, ?_, ?_⟩ <;> intros <;>
    simp_all [AssessResult]

/-- Witness for C2 at a concrete request with one successful and one
failed status binding: the result is `PartialSuccess` with the exact
message "1 of 2 bindings succeeded". -/
theorem assessResult_by_counts_witness :
    AssessResult
      { (default : PlacementRequest) with status :=
          { result := .unknown, reason := "", message := "", bindings :=
              [{ binding := { podName := "a", podUID := "u1", nodeName := "n1" },
                 result := .success, reason := "", message := "" },
               { binding := { podName := "b", podUID := "u2", nodeName := "n2" },
                 result := .failure, reason := "", message := "" }] } } =
      (.partSuccess, "1 of 2 bindings succeeded") := by
  have h := (assessResult_by_counts
    { (default : PlacementRequest) with status :=
        { result := .unknown, reason := "", message := "", bindings :=
            [{ binding := { podName := "a", podUID := "u1", nodeName := "n1" },
               result := .success, reason := "", message := "" },
             { binding := { podName := "b", podUID := "u2", nodeName := "n2" },
               result := .failure, reason := "", message := "" }] } }).2.2.2.2
  simpa using h (by decide) (by decide) (by decide)

/-! ## Machine integers: Go `uint`/`int` conversions -/

/-- Go `int(w)` for a `uint` value: reinterpret the low 64 bits as a
signed two's-complement integer. -/
def toInt64 (w : Nat) : Int :=
  if w % 2 ^ 64 < 2 ^ 63 then (w % 2 ^ 64 : Nat)
  else (w % 2 ^ 64 : Nat) - 2 ^ 64

/-- Wrap-around of an `int64` arithmetic result. -/
def wrap64 (z : Int) : Int :=
  (z + 2 ^ 63) % 2 ^ 64 - 2 ^ 63

/-! ## Admission: `enqueue` and `TryToRejectPlacementRequest`
(`pkg/controller/controller.go`) -/

/-- The per-scheduler queue configuration consumed by the admission
handler (`pkg/queue`, the `QueueConfig` embedding `v1alpha1.Queue`). -/
structure AdmissionQueueConfig where
  schedulerName : String
  weight : Nat
  maxSize : Nat
deriving DecidableEq, Repr

/-- What the admission path does with a delivered object. -/
inductive EnqueueEffect where
  /-- The object was silently dropped: no queue push and no status write. -/
  | dropped
  /-- `TryToRejectPlacementRequest` ran: a best-effort status update was
  issued carrying the rejected request. -/
  | rejectedWrite (pr : PlacementRequest)
  /-- The request was pushed onto the queue of the named scheduler. -/
  | pushed (schedulerName : String) (pr : PlacementRequest)
deriving DecidableEq, Repr

/-- `TryToRejectPlacementRequest`: sets `status.result = Rejected` plus
reason and message and issues the best-effort status update. -/
def TryToRejectPlacementRequest (pr : PlacementRequest)
    (reason message : String) : EnqueueEffect :=
  .rejectedWrite
    { pr with status :=
        { pr.status with result := .rejected, reason := reason, message := message } }

/-- `enqueue`: the admission handler.  `obj = none` models a delivered
object that is not a `*v1alpha1.PlacementRequest` (the type assertion
fails).  The controller's queue map is an association list keyed by
scheduler name (`configs.ToMap`). -/
def enqueue (queues : List (String × AdmissionQueueConfig))
    (obj : Option PlacementRequest) : EnqueueEffect :=
  match obj with
  | none => .dropped
  | some pr =>
    if pr.spec.schedulerName = "" then .dropped
    else
      match queues.lookup pr.spec.schedulerName with
      | none => TryToRejectPlacementRequest pr "QueueNotFound" "Scheduler queue not found"
      | some qcfg =>
        if toInt64 qcfg.maxSize < (pr.spec.bindings.length : Int) then
          TryToRejectPlacementRequest pr "PlacementRequestTooLarge" "Placement request too large"
        else
          .pushed qcfg.schedulerName pr

/-! ## C3: admission handler behavior -/

/-- C3 (amended): for every delivered object: a non-PlacementRequest or
an empty `spec.schedulerName` is dropped silently; an unknown scheduler
gets a best-effort `Rejected` write with reason "QueueNotFound" and
message "Scheduler queue not found" and is not enqueued; the size check
compares `len(spec.bindings)` against `int(maxSize)` — the `uint`
reinterpreted as a signed 64-bit integer — rejecting with reason
"PlacementRequestTooLarge" and message "Placement request too large"
when the length exceeds it and pushing onto exactly that scheduler's
queue otherwise; for `maxSize < 2^63` (no wrap) this comparison is the
plain numeric one of the claim. -/
theorem enqueue_cases (queues : List (String × AdmissionQueueConfig))
    (pr : PlacementRequest) :
    enqueue queues none = .dropped
    ∧ (pr.spec.schedulerName = "" → enqueue queues (some pr) = .dropped)
    ∧ (pr.spec.schedulerName ≠ "" →
        queues.lookup pr.spec.schedulerName = none →
        enqueue queues (some pr) = .rejectedWrite
          { pr with status := { pr.status with
              result := .rejected,
              reason := "QueueNotFound",
              message := "Scheduler queue not found" } })
    ∧ (∀ qcfg, pr.spec.schedulerName ≠ "" →
        queues.lookup pr.spec.schedulerName = some qcfg →
        toInt64 qcfg.maxSize < (pr.spec.bindings.length : Int) →
        enqueue queues (some pr) = .rejectedWrite
          { pr with status := { pr.status with
              result := .rejected,
              reason := "PlacementRequestTooLarge",
              message := "Placement request too large" } })
    ∧ (∀ qcfg, pr.spec.schedulerName ≠ "" →
        queues.lookup pr.spec.schedulerName = some qcfg →
        (pr.spec.bindings.length : Int) ≤ toInt64 qcfg.maxSize →
        enqueue queues (some pr) = .pushed qcfg.schedulerName pr)
    ∧ (∀ maxSize : Nat, maxSize < 2 ^ 63 →
        (toInt64 maxSize < (pr.spec.bindings.length : Int) ↔
          maxSize < pr.spec.bindings.length)) := by
  refine ⟨rfl, ?_, ?_, ?_, ?_, ?_⟩
  · intro h
    simp [enqueue, h]
  · intro h hl
    simp [enqueue, h, hl, TryToRejectPlacementRequest]
  · intro qcfg h hl hsize
    simp [enqueue, h, hl, TryToRejectPlacementRequest, hsize]
  · intro qcfg h hl hsize
    simp [enqueue, h, hl, not_lt.mpr hsize]
  · intro maxSize hm
    rw [toInt64, Nat.mod_eq_of_lt (by omega), if_pos hm]
    exact_mod_cast Iff.rfl

/-- C3 counterexample: the size check is not the numeric comparison
against `maxSize`: a type-legal `maxSize = 2^63` wraps to the negative
`int` value `-2^63`, so a one-binding request — numerically far below
`maxSize` — is rejected as too large instead of being pushed. -/
theorem enqueue_not_nat_comparison :
    enqueue [("s1", { schedulerName := "s1", weight := 1, maxSize := 2 ^ 63 })]
      (some { (default : PlacementRequest) with spec :=
        { policy := .lenient, priority := 0, schedulerName := "s1",
          bindings := [{ podName := "a", podUID := "u1", nodeName := "n1" }] } }) =
      .rejectedWrite
        { (default : PlacementRequest) with
            spec := { policy := .lenient, priority := 0, schedulerName := "s1",
                      bindings :=
                        [{ podName := "a", podUID := "u1", nodeName := "n1" }] },
            status := { result := .rejected, reason := "PlacementRequestTooLarge",
                        message := "Placement request too large", bindings := [] } }
    ∧ (1 : Nat) ≤ 2 ^ 63 := by
  constructor
  · decide
  · decide

/-- Witness for C3: a concrete oversized request is rejected with reason
"PlacementRequestTooLarge" and is not pushed. -/
theorem enqueue_cases_witness :
    enqueue [("s1", { schedulerName := "s1", weight := 1, maxSize := 1 })]
      (some { (default : PlacementRequest) with spec :=
        { policy := .lenient, priority := 0, schedulerName := "s1", bindings :=
            [{ podName := "a", podUID := "u1", nodeName := "n1" },
             { podName := "b", podUID := "u2", nodeName := "n2" }] } }) =
      .rejectedWrite
        { (default : PlacementRequest) with
            spec := { policy := .lenient, priority := 0, schedulerName := "s1",
                      bindings :=
                        [{ podName := "a", podUID := "u1", nodeName := "n1" },
                         { podName := "b", podUID := "u2", nodeName := "n2" }] },
            status := { result := .rejected, reason := "PlacementRequestTooLarge",
                        message := "Placement request too large", bindings := [] } } := by
  have h := (enqueue_cases
    [("s1", { schedulerName := "s1", weight := 1, maxSize := 1 })]
    { (default : PlacementRequest) with spec :=
      { policy := .lenient, priority := 0, schedulerName := "s1", bindings :=
          [{ podName := "a", podUID := "u1", nodeName := "n1" },
           { podName := "b", podUID := "u2", nodeName := "n2" }] } }).2.2.2.1
  simpa using h { schedulerName := "s1", weight := 1, maxSize := 1 }
    (by decide) (by rfl) (by decide)

/-! ## Iterator resume latch (`pkg/queue/iterator.go`, `NewQueueIterator`) -/

/-- Capacity of the iterator's resume channel: the source constructs it
with `make(chan bool, 2)`. -/
def resumeCapacity : Nat := 2

/-- `QueueIterator.Resume` as a transition on the number of buffered
resume signals: the `select` sends when the buffer has room and otherwise
takes the `default` branch, so the call never blocks and is total. -/
def Resume (pending : Nat) : Nat :=
  if pending < resumeCapacity then pending + 1 else pending

/-! ## C8: resume signal coalescing -/

/-- C8 counterexample: the resume buffer is not a 1-slot latch.  With one
wakeup already pending, a further `Resume` call leaves two pending
wakeups, not exactly one. -/
theorem resume_not_single_slot : Resume 1 = 2 ∧ Resume 1 ≠ 1 := by
  constructor <;> decide

/-- C8 amended: `Resume` never blocks its caller (it is a total transition
that leaves a full buffer unchanged), the resume channel is a buffered
2-slot latch, and any number of `Resume` calls coalesce to at most two
pending wakeups: iterating `Resume` `n` times from `p ≤ 2` pending leaves
exactly `min (p + n) 2` pending. -/
theorem resume_coalesces (n p : Nat) (hp : p ≤ resumeCapacity) :
    Resume^[n] p = min (p + n) resumeCapacity
    ∧ (resumeCapacity ≤ p → Resume p = p) := by
  constructor
  · induction n generalizing p with
    | zero => simp [resumeCapacity] at hp ⊢; omega
    | succ k ih =>
      rw [Function.iterate_succ_apply]
      by_cases h : p < resumeCapacity
      · rw [show Resume p = p + 1 from if_pos h, ih (p + 1) (by omega)]
        simp [resumeCapacity] at *; omega
      · rw [show Resume p = p from if_neg h, ih p hp]
        simp [resumeCapacity] at *; omega
  · intro h
    unfold Resume
    rw [if_neg (by omega)]

/-- Witness for C8 amended: three `Resume` calls from an empty buffer
leave exactly two pending wakeups. -/
theorem resume_coalesces_witness :
    Resume^[3] 0 = 2 := by
  have h := (resume_coalesces 3 0 (by decide)).1
  simpa using h

/-! ## Dispatcher: `ScheduleOne` (`pkg/controller/controller.go`)

The external collaborators (pod lister, node snapshot, scheduling
framework plugins, bind and status clients) are modelled as an
environment of pure functions; every externally visible call is recorded
as an effect. -/

/-- The part of a pod that `ScheduleOne` inspects. -/
structure Pod where
  name : String
  nodeName : String
deriving DecidableEq, Repr

/-- One validation plugin of a profile, abstracting
`runPluginValidation`: given the pod and the target node name it returns
`some errmsg` on a filter/prefilter failure and `none` on success. -/
structure ProfilePlugin where
  pluginName : String
  run : Pod → String → Option String

/-- Environment of external collaborators for one `ScheduleOne` call. -/
structure SchedEnv where
  /-- `podlister.Get`: `Except.error e` models a lister error. -/
  podGet : String → Except String Pod
  /-- `cache.UpdateSnapshot`: `false` models an error return. -/
  snapshotOk : Bool
  /-- `snapshot.NodeInfos().List()`: node names present in the snapshot,
  or `none` on error. -/
  nodeInfoNames : Option (List String)
  /-- `controller.profiles`: scheduler name to plugin list. -/
  profiles : List (String × List ProfilePlugin)
  /-- `binder.Bind`: `some errmsg` models an API error. -/
  bindPod : Binding → Option String
  /-- `prqclient.UpdateStatus`: `some errmsg` models an update error. -/
  updateStatus : PlacementRequest → Option String

/-- Externally visible calls issued by `ScheduleOne`. -/
inductive SchedEffect where
  | snapshotUpdate
  | nodeInfosList
  | podGetCall (podName : String)
  | bindCall (b : Binding)
  | statusUpdate (pr : PlacementRequest)
deriving DecidableEq, Repr

/-- Result of a `ScheduleOne` call. -/
inductive SchedOutcome where
  | ok
  | err (msg : String)
  | panicked
deriving DecidableEq, Repr

/-- The plugin loop of `ScheduleOne`: for each plugin of the profile, a
missing node-info or a failing validation marks the binding failed with
reason "validation failed" and stops.  Returns `some errmsg` when
validation failed. -/
def runProfilePlugins (plugins : List ProfilePlugin)
    (nodeNames : List String) (pod : Pod) (b : Binding) : Option String :=
  match plugins with
  | [] => none
  | p :: rest =>
    if b.nodeName ∉ nodeNames then
      some "nodeinfo missing for a node"
    else
      match p.run pod b.nodeName with
      | some e => some e
      | none => runProfilePlugins rest nodeNames pod b

/-- The binding loop of `ScheduleOne` over `pr.Spec.Bindings`.  Returns
the accumulated effects and the request with its status bindings
updated; a validation failure breaks out of the whole loop. -/
def bindLoop (env : SchedEnv) (plugins : List ProfilePlugin)
    (nodeNames : List String) :
    List Binding → PlacementRequest → List SchedEffect × PlacementRequest
  | [], pr => ([], pr)
  | b :: rest, pr =>
    match env.podGet b.podName with
    | .error e =>
      let pr' := SetPodBindingFailure pr b "API error"
        ("Failed to get pod " ++ b.podName ++ ": " ++ e)
      let (effs, prOut) := bindLoop env plugins nodeNames rest pr'
      (.podGetCall b.podName :: effs, prOut)
    | .ok pod =>
      if pod.nodeName ≠ "" then
        if pod.nodeName = b.nodeName then
          let pr' := SetPodBindingSuccess pr b "Binding unneeded" "Pod was already bound"
          let (effs, prOut) := bindLoop env plugins nodeNames rest pr'
          (.podGetCall b.podName :: effs, prOut)
        else
          let pr' := SetPodBindingFailure pr b "Pod already bound"
            ("Pod " ++ b.podName ++ " bound to a different node node")
          let (effs, prOut) := bindLoop env plugins nodeNames rest pr'
          (.podGetCall b.podName :: effs, prOut)
      else
        match runProfilePlugins plugins nodeNames pod b with
        | some e =>
          -- validationFailed: record the failure and break the loop.
          ([.podGetCall b.podName],
            SetPodBindingFailure pr b "validation failed" e)
        | none =>
          match env.bindPod b with
          | some e =>
            let pr' := SetPodBindingFailure pr b "API denied binding" e
            let (effs, prOut) := bindLoop env plugins nodeNames rest pr'
            (.podGetCall b.podName :: .bindCall b :: effs, prOut)
          | none =>
            let pr' := SetPodBindingSuccess pr b "Binding successful" "Pod successfully bound"
            let (effs, prOut) := bindLoop env plugins nodeNames rest pr'
            (.podGetCall b.podName :: .bindCall b :: effs, prOut)

/-- `ScheduleOne`. -/
def ScheduleOne (env : SchedEnv) (pr : PlacementRequest) :
    List SchedEffect × PlacementRequest × SchedOutcome :=
  if pr.deletionTimestamp ≠ none ∨ pr.status.result ≠ PlacementRequestResult.unknown then
    ([], pr, .ok)
  else
    match Validate pr with
    | some errmsg =>
      let pr' := { pr with status :=
        { pr.status with result := .rejected, message := errmsg } }
      match env.updateStatus pr' with
      | some e => ([.statusUpdate pr'], pr', .err e)
      | none => ([.statusUpdate pr'], pr', .ok)
    | none =>
      if ¬env.snapshotOk then
        ([.snapshotUpdate], pr, .err "unable to update a snapshot")
      else
        match env.nodeInfoNames with
        | none => ([.snapshotUpdate, .nodeInfosList], pr,
            .err "unable to get node infos list")
        | some nodeNames =>
          match env.profiles.lookup pr.spec.schedulerName with
          | none => ([.snapshotUpdate, .nodeInfosList], pr, .panicked)
          | some plugins =>
            let (effs, prLoop) := bindLoop env plugins nodeNames pr.spec.bindings pr
            let (res, msg) := AssessResult prLoop
            let pr' := { prLoop with status :=
              { prLoop.status with result := res, message := msg } }
            match env.updateStatus pr' with
            | some e =>
              (.snapshotUpdate :: .nodeInfosList :: effs ++ [.statusUpdate pr'], pr',
                .err ("failed to update placement request status: " ++ e))
            | none =>
              (.snapshotUpdate :: .nodeInfosList :: effs ++ [.statusUpdate pr'], pr', .ok)

/-! ## C1: terminal or deleted requests are skipped without effects -/

/-- C1: for every request whose `deletionTimestamp` is set or whose
`status.result` is not `Unknown`, `ScheduleOne` returns nil immediately:
it issues no external call at all (no snapshot refresh, no pod get, no
bind request, no status update) and leaves the request unchanged. -/
theorem scheduleOne_skips_terminal (env : SchedEnv) (pr : PlacementRequest)
    (h : pr.deletionTimestamp ≠ none ∨
         pr.status.result ≠ PlacementRequestResult.unknown) :
    ScheduleOne env pr = ([], pr, .ok) := by
  unfold ScheduleOne
  rw [if_pos h]

/-- Witness for C1: a concrete request already marked `Success` is
skipped with no effects. -/
theorem scheduleOne_skips_terminal_witness :
    ScheduleOne
      { podGet := fun n => .ok { name := n, nodeName := "" },
        snapshotOk := true, nodeInfoNames := some [], profiles := [],
        bindPod := fun _ => none, updateStatus := fun _ => none }
      { (default : PlacementRequest) with status :=
          { result := .success, reason := "", message := "", bindings := [] } } =
      ([], { (default : PlacementRequest) with status :=
          { result := .success, reason := "", message := "", bindings := [] } }, .ok) := by
  exact scheduleOne_skips_terminal _ _ (Or.inr (by decide))

/-! ## C7: the binding loop's per-binding outcomes -/

/-- Modelled from the claim's enumeration (spec §4.F step 4): the status
entry that one spec binding is said to produce. -/
def claimBindingOutcome (env : SchedEnv) (b : Binding) :
    PlacementRequestBindingResult :=
  match env.podGet b.podName with
  | .error e =>
    { binding := b, result := .failure, reason := "API error",
      message := "Failed to get pod " ++ b.podName ++ ": " ++ e }
  | .ok pod =>
    if pod.nodeName ≠ "" then
      if pod.nodeName = b.nodeName then
        { binding := b, result := .success, reason := "Binding unneeded",
          message := "Pod was already bound" }
      else
        { binding := b, result := .failure, reason := "Pod already bound",
          message := "Pod " ++ b.podName ++ " bound to a different node node" }
    else
      match env.bindPod b with
      | some e =>
        { binding := b, result := .failure, reason := "API denied binding",
          message := e }
      | none =>
        { binding := b, result := .success, reason := "Binding successful",
          message := "Pod successfully bound" }

/-- Modelled from the claim: the external calls one spec binding is said
to trigger — always a pod lookup, and a bind request exactly when the pod
was found and not yet bound to any node. -/
def claimBindingEffects (env : SchedEnv) (b : Binding) : List SchedEffect :=
  match env.podGet b.podName with
  | .error _ => [.podGetCall b.podName]
  | .ok pod =>
    if pod.nodeName ≠ "" then [.podGetCall b.podName]
    else [.podGetCall b.podName, .bindCall b]

theorem setBindingEntry_append (entries : List PlacementRequestBindingResult)
    (bind : Binding) (result : PlacementRequestResult) (reason msg : String)
    (h : ∀ e ∈ entries, e.binding.podUID ≠ bind.podUID) :
    setBindingEntry entries bind result reason msg =
      entries ++ [{ binding := bind, result := result, reason := reason, message := msg }] := by
  induction entries with
  | nil => rfl
  | cons e rest ih =>
    have hne : e.binding.podUID ≠ bind.podUID := h e (List.mem_cons_self e rest)
    simp only [setBindingEntry, if_neg hne, List.cons_append, List.cons.injEq, true_and]
    exact ih fun x hx => h x (List.mem_cons_of_mem e hx)

/-- With no validation plugins, the binding loop appends to the status
exactly one entry per spec binding, as enumerated by the claim, and
issues exactly the claimed external calls. -/
theorem bindLoop_no_plugins (env : SchedEnv) (nodeNames : List String)
    (bs : List Binding) (pr : PlacementRequest)
    (hdisj : ∀ e ∈ pr.status.bindings, ∀ b ∈ bs, e.binding.podUID ≠ b.podUID)
    (hdist : bs.Pairwise (fun a b => a.podUID ≠ b.podUID)) :
    (bindLoop env [] nodeNames bs pr).2.status.bindings =
      pr.status.bindings ++ bs.map (claimBindingOutcome env)
    ∧ (bindLoop env [] nodeNames bs pr).1 =
      bs.flatMap (claimBindingEffects env) := by
  induction bs generalizing pr with
  | nil => simp [bindLoop]
  | cons b rest ih =>
    have hb : ∀ e ∈ pr.status.bindings, e.binding.podUID ≠ b.podUID :=
      fun e he => hdisj e he b (List.mem_cons_self b rest)
    have hdisj' : ∀ (res : PlacementRequestResult) (reason msg : String),
        ∀ e ∈ (SetPodBindingResult pr b res reason msg).status.bindings,
          ∀ b' ∈ rest, e.binding.podUID ≠ b'.podUID := by
      intro res reason msg e he b' hb'
      simp only [SetPodBindingResult, setBindingEntry_append _ _ _ _ _ hb,
        List.mem_append, List.mem_singleton] at he
      rcases he with he | he
      · exact hdisj e he b' (List.mem_cons_of_mem b hb')
      · subst he
        exact (List.pairwise_cons.mp hdist).1 b' hb'
    have hdist' : rest.Pairwise (fun a b => a.podUID ≠ b.podUID) :=
      (List.pairwise_cons.mp hdist).2
    have happend : ∀ (res : PlacementRequestResult) (reason msg : String),
        (SetPodBindingResult pr b res reason msg).status.bindings =
          pr.status.bindings ++
            [{ binding := b, result := res, reason := reason, message := msg }] := by
      intro res reason msg
      simp [SetPodBindingResult, setBindingEntry_append _ _ _ _ _ hb]
    rcases hpg : env.podGet b.podName with e | pod
    · have h2 := ih (SetPodBindingResult pr b .failure "API error"
        ("Failed to get pod " ++ b.podName ++ ": " ++ e)) (hdisj' _ _ _) hdist'
      simp only [bindLoop, hpg, SetPodBindingFailure, SetPodBindingSuccess]
      refine ⟨?_, ?_⟩
      · rw [h2.1, happend]
        simp [claimBindingOutcome, hpg]
      · rw [h2.2]
        simp [claimBindingEffects, hpg]
    · by_cases hnn : pod.nodeName ≠ ""
      · by_cases heq : pod.nodeName = b.nodeName
        · have h2 := ih (SetPodBindingResult pr b .success "Binding unneeded"
            "Pod was already bound") (hdisj' _ _ _) hdist'
          simp only [bindLoop, hpg, if_pos hnn, if_pos heq,
            SetPodBindingFailure, SetPodBindingSuccess]
          have hbn : b.nodeName ≠ "" := heq ▸ hnn
          refine ⟨?_, ?_⟩
          · rw [h2.1, happend]
            simp [claimBindingOutcome, hpg, hnn, heq, hbn]
          · rw [h2.2]
            simp [claimBindingEffects, hpg, hnn]
        · have h2 := ih (SetPodBindingResult pr b .failure "Pod already bound"
            ("Pod " ++ b.podName ++ " bound to a different node node"))
            (hdisj' _ _ _) hdist'
          simp only [bindLoop, hpg, if_pos hnn, if_neg heq,
            SetPodBindingFailure, SetPodBindingSuccess]
          refine ⟨?_, ?_⟩
          · rw [h2.1, happend]
            simp [claimBindingOutcome, hpg, hnn, heq]
          · rw [h2.2]
            simp [claimBindingEffects, hpg, hnn]
      · rcases hbind : env.bindPod b with _ | e
        · have h2 := ih (SetPodBindingResult pr b .success "Binding successful"
            "Pod successfully bound") (hdisj' _ _ _) hdist'
          simp only [bindLoop, hpg, if_neg hnn, runProfilePlugins, hbind,
            SetPodBindingFailure, SetPodBindingSuccess]
          refine ⟨?_, ?_⟩
          · rw [h2.1, happend]
            simp [claimBindingOutcome, hpg, hnn, hbind]
          · rw [h2.2]
            simp [claimBindingEffects, hpg, hnn]
        · have h2 := ih (SetPodBindingResult pr b .failure "API denied binding" e)
            (hdisj' _ _ _) hdist'
          simp only [bindLoop, hpg, if_neg hnn, runProfilePlugins, hbind,
            SetPodBindingFailure, SetPodBindingSuccess]
          refine ⟨?_, ?_⟩
          · rw [h2.1, happend]
            simp [claimBindingOutcome, hpg, hnn, hbind]
          · rw [h2.2]
            simp [claimBindingEffects, hpg, hnn]

/-- C7 amended: when no validation plugins are configured for the
request's scheduler profile, the dispatcher's binding loop produces for
each spec binding (with distinct pod UIDs, starting from an empty status)
exactly the status entry enumerated by the claim, and issues exactly one
pod lookup per binding plus a bind request for each pod found unbound. -/
theorem scheduleOne_binding_outcomes (env : SchedEnv) (pr : PlacementRequest)
    (nodeNames : List String)
    (hdel : pr.deletionTimestamp = none)
    (hres : pr.status.result = PlacementRequestResult.unknown)
    (hval : Validate pr = none)
    (hsnap : env.snapshotOk = true)
    (hnodes : env.nodeInfoNames = some nodeNames)
    (hprof : env.profiles.lookup pr.spec.schedulerName = some [])
    (hstat : pr.status.bindings = [])
    (hdist : pr.spec.bindings.Pairwise (fun a b => a.podUID ≠ b.podUID)) :
    (ScheduleOne env pr).2.1.status.bindings =
      pr.spec.bindings.map (claimBindingOutcome env)
    ∧ (ScheduleOne env pr).1 =
      .snapshotUpdate :: .nodeInfosList ::
        (pr.spec.bindings.flatMap (claimBindingEffects env) ++
          [.statusUpdate (ScheduleOne env pr).2.1]) := by
  have hloop := bindLoop_no_plugins env nodeNames pr.spec.bindings pr
    (by rw [hstat]; intro e he; cases he) hdist
  have hskip : ¬(pr.deletionTimestamp ≠ none ∨
      pr.status.result ≠ PlacementRequestResult.unknown) := by
    push_neg
    exact ⟨hdel, hres⟩
  rw [hstat] at hloop
  unfold ScheduleOne
  rw [if_neg hskip, hval, hsnap]
  simp only [Bool.not_true, if_neg (by simp : ¬(false = true)), hnodes, hprof]
  rcases hupd : env.updateStatus _ with _ | e <;>
    simp_all [hloop.1, hloop.2]

/-- A concrete environment for the C7 witness: pod "a" exists unbound and
binds successfully, pod "b" exists unbound and the API denies the bind. -/
def envPartial : SchedEnv :=
  { podGet := fun n => .ok { name := n, nodeName := "" },
    snapshotOk := true,
    nodeInfoNames := some ["node1", "node2"],
    profiles := [("s1", [])],
    bindPod := fun b => if b.podName = "b" then some "denied" else none,
    updateStatus := fun _ => none }

/-- A concrete two-binding request for the C7 witness. -/
def prTwoBindings : PlacementRequest :=
  { (default : PlacementRequest) with spec :=
      { policy := .lenient, priority := 0, schedulerName := "s1", bindings :=
          [{ podName := "a", podUID := "u1", nodeName := "node1" },
           { podName := "b", podUID := "u2", nodeName := "node2" }] } }

/-- Witness for C7 amended: with no plugins configured, binding "a"
succeeds with reason "Binding successful" and binding "b" fails with
reason "API denied binding" carrying the error message. -/
theorem scheduleOne_binding_outcomes_witness :
    (ScheduleOne envPartial prTwoBindings).2.1.status.bindings =
      [{ binding := { podName := "a", podUID := "u1", nodeName := "node1" },
         result := .success, reason := "Binding successful",
         message := "Pod successfully bound" },
       { binding := { podName := "b", podUID := "u2", nodeName := "node2" },
         result := .failure, reason := "API denied binding",
         message := "denied" }] := by
  have h := (scheduleOne_binding_outcomes envPartial prTwoBindings
    ["node1", "node2"] rfl rfl (by decide) rfl rfl rfl rfl
    (by simp [prTwoBindings])).1
  rw [h]
  rfl

/-- A failing validation plugin for the C7 counterexample. -/
def envVeto : SchedEnv :=
  { podGet := fun n => .ok { name := n, nodeName := "" },
    snapshotOk := true,
    nodeInfoNames := some ["node1", "node2"],
    profiles := [("s1", [{ pluginName := "veto", run := fun _ _ => some "vetoed" }])],
    bindPod := fun _ => none,
    updateStatus := fun _ => none }

/-- C7 counterexample: with a configured validation plugin that fails,
the binding loop records for the first spec binding a failure with reason
"validation failed" — a reason outside the claim's enumeration — and
breaks, leaving the second spec binding with no status entry at all, so
it is false that each spec binding produces exactly one of the four
enumerated entries. -/
theorem scheduleOne_binding_outcomes_counterexample :
    ((ScheduleOne envVeto prTwoBindings).2.1.status.bindings.map fun e => e.reason) =
      ["validation failed"]
    ∧ prTwoBindings.spec.bindings.length = 2
    ∧ "validation failed" ∉
        ["API error", "Binding unneeded", "Pod already bound",
         "API denied binding", "Binding successful"] := by
  refine ⟨rfl, rfl, ?_⟩
  decide

/-! ## Priority queue: `pkg/queue/prioritized.go` and the Go
`container/heap` sift operations it delegates to

The heap slice is modelled as a `List PlacementRequest` (the
`PrioritizedPlacementRequest` wrapper only contributes `Priority`).
`heapUp`/`heapDown` transcribe `container/heap`'s `up` and `down`. -/

/-- Slice indexing, `l[i]`. -/
def prAt (l : List PlacementRequest) (i : Nat) : PlacementRequest :=
  l.getD i default

/-- `h.Swap(i, j)`. -/
def swapAt (l : List PlacementRequest) (i j : Nat) : List PlacementRequest :=
  (l.set i (prAt l j)).set j (prAt l i)

/-- `container/heap`'s `up`: sift the element at `j` towards the root
while it is smaller than its parent. -/
def heapUp (l : List PlacementRequest) (j : Nat) : List PlacementRequest :=
  if j = 0 then l
  else if Priority (prAt l j) < Priority (prAt l ((j - 1) / 2)) then
    heapUp (swapAt l ((j - 1) / 2) j) ((j - 1) / 2)
  else l
  termination_by j
  decreasing_by omega

/-- The child index `j` that `container/heap`'s `down` selects: the
right child when it exists and is smaller, otherwise the left child. -/
def minChild (l : List PlacementRequest) (i n : Nat) : Nat :=
  if 2 * i + 2 < n ∧
      Priority (prAt l (2 * i + 2)) < Priority (prAt l (2 * i + 1)) then
    2 * i + 2
  else
    2 * i + 1

/-- `container/heap`'s `down`: sift the element at `i` down within the
first `n` entries, swapping with the smaller child. -/
def heapDown (l : List PlacementRequest) (i n : Nat) : List PlacementRequest :=
  if _h1 : 2 * i + 1 < n then
    if Priority (prAt l (minChild l i n)) < Priority (prAt l i) then
      heapDown (swapAt l i (minChild l i n)) (minChild l i n) n
    else l
  else l
  termination_by n - i
  decreasing_by simp only [minChild] ; split <;> omega

/-- `PlacementRequestQueue.Push`: append then `heap.Push`'s sift-up. -/
def queuePush (q : List PlacementRequest) (pr : PlacementRequest) :
    List PlacementRequest :=
  heapUp (q ++ [pr]) q.length

/-- `PlacementRequestQueue.Pop`: `nil` when empty, otherwise
`heap.Pop` — swap the root with the last entry, sift down within the
shortened prefix and detach the last entry. -/
def queuePop (q : List PlacementRequest) :
    Option (PlacementRequest × List PlacementRequest) :=
  if q.length = 0 then none
  else
    let n := q.length - 1
    let l2 := heapDown (swapAt q 0 n) 0 n
    some (prAt l2 n, l2.take n)

/-- The min-heap ordering on the first `n` entries. -/
def IsMinHeapUpTo (l : List PlacementRequest) (n : Nat) : Prop :=
  ∀ j, 0 < j → j < n → Priority (prAt l ((j - 1) / 2)) ≤ Priority (prAt l j)

/-- The min-heap invariant of a queue state. -/
def IsMinHeap (l : List PlacementRequest) : Prop :=
  IsMinHeapUpTo l l.length

/-! ### Index bookkeeping lemmas -/

theorem prAt_eq_getElem (l : List PlacementRequest) (i : Nat) (h : i < l.length) :
    prAt l i = l[i] := by
  simp [prAt, List.getD_eq_getElem?_getD, List.getElem?_eq_getElem h]

theorem prAt_set (l : List PlacementRequest) (i : Nat) (x : PlacementRequest)
    (k : Nat) :
    prAt (l.set i x) k = if i = k ∧ i < l.length then x else prAt l k := by
  simp only [prAt, List.getD_eq_getElem?_getD, List.getElem?_set]
  by_cases hik : i = k
  · subst hik
    by_cases hlen : i < l.length
    · simp [hlen]
    · simp [hlen, List.getElem?_eq_none (by omega : l.length ≤ i)]
  · simp [hik]

theorem length_swapAt (l : List PlacementRequest) (i j : Nat) :
    (swapAt l i j).length = l.length := by
  simp [swapAt]

theorem prAt_swapAt_left (l : List PlacementRequest) (i j : Nat)
    (hi : i < l.length) (hj : j < l.length) :
    prAt (swapAt l i j) i = prAt l j := by
  simp only [swapAt, prAt_set, List.length_set]
  by_cases hij : j = i
  · subst hij; simp [hj]
  · simp [hij, hi]

theorem prAt_swapAt_right (l : List PlacementRequest) (i j : Nat)
    (hj : j < l.length) :
    prAt (swapAt l i j) j = prAt l i := by
  simp [swapAt, prAt_set, List.length_set, hj]

theorem prAt_swapAt_other (l : List PlacementRequest) (i j k : Nat)
    (hki : k ≠ i) (hkj : k ≠ j) :
    prAt (swapAt l i j) k = prAt l k := by
  simp only [swapAt, prAt_set, List.length_set]
  rw [if_neg (fun h => hkj h.1.symm), if_neg (fun h => hki h.1.symm)]

theorem swapAt_perm (l : List PlacementRequest) (i j : Nat)
    (hi : i < l.length) (hj : j < l.length) :
    (swapAt l i j).Perm l := by
  rw [List.perm_iff_count]
  intro a
  have h2 : j < (l.set i (prAt l j)).length := by
    rw [List.length_set]; exact hj
  rw [swapAt, List.count_set _ _ _ _ h2, List.count_set _ _ _ _ hi]
  have hset : (l.set i (prAt l j))[j] = prAt l j := by
    rw [List.getElem_set]
    split
    · rfl
    · exact (prAt_eq_getElem l j hj).symm
  rw [hset, prAt_eq_getElem l i hi]
  have hmem : l[i] ∈ l := l.getElem_mem hi
  by_cases hp : (l[i] == a) = true
  · have hone : 1 ≤ List.count a l :=
      List.count_pos_iff.mpr (by rwa [eq_of_beq hp] at hmem)
    by_cases hq : (prAt l j == a) = true <;> simp [hp, hq] <;> omega
  · by_cases hq : (prAt l j == a) = true <;> simp [hp, hq]

/-! ### Sift-up correctness -/

/-- The priority key stored at index `k`. -/
def keyAt (l : List PlacementRequest) (k : Nat) : Int :=
  Priority (prAt l k)

theorem keyAt_swapAt_left (l : List PlacementRequest) (i j : Nat)
    (hi : i < l.length) (hj : j < l.length) :
    keyAt (swapAt l i j) i = keyAt l j := by
  simp [keyAt, prAt_swapAt_left l i j hi hj]

theorem keyAt_swapAt_right (l : List PlacementRequest) (i j : Nat)
    (hj : j < l.length) :
    keyAt (swapAt l i j) j = keyAt l i := by
  simp [keyAt, prAt_swapAt_right l i j hj]

theorem keyAt_swapAt_other (l : List PlacementRequest) (i j k : Nat)
    (hki : k ≠ i) (hkj : k ≠ j) :
    keyAt (swapAt l i j) k = keyAt l k := by
  simp [keyAt, prAt_swapAt_other l i j k hki hkj]

/-- Restatement of the heap order through `keyAt`. -/
theorem isMinHeapUpTo_iff (l : List PlacementRequest) (n : Nat) :
    IsMinHeapUpTo l n ↔ ∀ j, 0 < j → j < n → keyAt l ((j - 1) / 2) ≤ keyAt l j :=
  Iff.rfl

/-- The invariant maintained by `heapUp` at hole `j` (only the edge into
`j` may be unordered, and `j`'s children fit below `j`'s parent). -/
def UpState (l : List PlacementRequest) (n j : Nat) : Prop :=
  (∀ k, 0 < k → k < n → k ≠ j → keyAt l ((k - 1) / 2) ≤ keyAt l k)
  ∧ (0 < j → ∀ k, 0 < k → k < n → (k - 1) / 2 = j →
      keyAt l ((j - 1) / 2) ≤ keyAt l k)

theorem heapUp_correct (j : Nat) : ∀ l : List PlacementRequest,
    l.length = n → j < n → UpState l n j →
    IsMinHeapUpTo (heapUp l j) n ∧ (heapUp l j).Perm l := by
  induction j using Nat.strong_induction_on with
  | _ j ih =>
    intro l hlen hj hs
    by_cases hj0 : j = 0
    · subst hj0
      have h0 : heapUp l 0 = l := by
        rw [heapUp]
        simp
      rw [h0]
      exact ⟨fun k hk0 hkn => hs.1 k hk0 hkn (by omega), List.Perm.refl l⟩
    · set i := (j - 1) / 2 with hidef
      have hij : i < j := by omega
      have hin : i < l.length := by omega
      have hjn : j < l.length := by omega
      by_cases hlt : Priority (prAt l j) < Priority (prAt l i)
      · have hstep : heapUp l j = heapUp (swapAt l i j) i := by
          rw [heapUp, if_neg hj0, if_pos (hidef ▸ hlt)]
        rw [hstep]
        have hlen' : (swapAt l i j).length = n := by
          rw [length_swapAt]; exact hlen
        have hup : UpState (swapAt l i j) n i := by
          constructor
          · intro k hk0 hkn hki
            by_cases hkj : k = j
            · rw [hkj, ← hidef,
                keyAt_swapAt_left l i j hin hjn, keyAt_swapAt_right l i j hjn]
              exact le_of_lt hlt
            · have hkv : keyAt (swapAt l i j) k = keyAt l k :=
                keyAt_swapAt_other l i j k hki hkj
              by_cases hpi : (k - 1) / 2 = i
              · rw [hpi, keyAt_swapAt_left l i j hin hjn, hkv]
                have h1 : keyAt l i ≤ keyAt l k := by
                  have := hs.1 k hk0 hkn hkj
                  rwa [hpi] at this
                exact le_trans (le_of_lt hlt) h1
              · by_cases hpj : (k - 1) / 2 = j
                · rw [hpj, keyAt_swapAt_right l i j hjn, hkv]
                  have := hs.2 (by omega) k hk0 hkn hpj
                  rwa [← hidef] at this
                · rw [keyAt_swapAt_other l i j _ hpi hpj, hkv]
                  exact hs.1 k hk0 hkn hkj
          · intro hi0 k hk0 hkn hpk
            have hp_ne_i : (i - 1) / 2 ≠ i := by omega
            have hp_ne_j : (i - 1) / 2 ≠ j := by omega
            rw [keyAt_swapAt_other l i j _ hp_ne_i hp_ne_j]
            have hkchild : i < k := by omega
            by_cases hkj : k = j
            · rw [hkj, keyAt_swapAt_right l i j hjn]
              exact hs.1 i hi0 (by omega) (by omega)
            · rw [keyAt_swapAt_other l i j k (by omega) hkj]
              have h1 : keyAt l ((i - 1) / 2) ≤ keyAt l i :=
                hs.1 i hi0 (by omega) (by omega)
              have h2 : keyAt l i ≤ keyAt l k := by
                have := hs.1 k hk0 hkn hkj
                rwa [hpk] at this
              exact le_trans h1 h2
        have hres := ih i hij (swapAt l i j) hlen' (by omega) hup
        exact ⟨hres.1, hres.2.trans (swapAt_perm l i j hin hjn)⟩
      · have hstep : heapUp l j = l := by
          rw [heapUp, if_neg hj0, if_neg (hidef ▸ hlt)]
        rw [hstep]
        refine ⟨fun k hk0 hkn => ?_, List.Perm.refl l⟩
        by_cases hkj : k = j
        · rw [hkj, ← hidef]
          exact not_lt.mp hlt
        · exact hs.1 k hk0 hkn hkj

/-! ### Push correctness -/

theorem prAt_append_lt (q : List PlacementRequest) (x : PlacementRequest)
    (k : Nat) (h : k < q.length) : prAt (q ++ [x]) k = prAt q k := by
  simp [prAt, List.getD_eq_getElem?_getD, List.getElem?_append, h]

theorem prAt_append_self (q : List PlacementRequest) (x : PlacementRequest) :
    prAt (q ++ [x]) q.length = x := by
  simp [prAt, List.getD_eq_getElem?_getD]

/-- `Push` preserves the heap invariant and adds exactly the pushed
request to the contents. -/
theorem queuePush_correct (q : List PlacementRequest) (pr : PlacementRequest)
    (hq : IsMinHeap q) :
    IsMinHeap (queuePush q pr) ∧ (queuePush q pr).Perm (q ++ [pr]) := by
  have hlen : (q ++ [pr]).length = q.length + 1 := by simp
  have hup : UpState (q ++ [pr]) (q.length + 1) q.length := by
    constructor
    · intro k hk0 hkn hkj
      have hk : k < q.length := by omega
      have hpar : (k - 1) / 2 < q.length := by omega
      simp only [keyAt, prAt_append_lt q pr k hk, prAt_append_lt q pr _ hpar]
      exact hq k hk0 hk
    · intro _ k hk0 hkn hpk
      omega
  have h := heapUp_correct q.length (q ++ [pr]) hlen (by omega) hup
  refine ⟨?_, h.2⟩
  have hlen2 : (queuePush q pr).length = q.length + 1 := by
    rw [queuePush]
    rw [h.2.length_eq, hlen]
  rw [IsMinHeap, hlen2]
  exact h.1

/-! ### Sift-down correctness -/

theorem minChild_bounds (l : List PlacementRequest) (i n : Nat)
    (h1 : 2 * i + 1 < n) : i < minChild l i n ∧ minChild l i n < n := by
  rw [minChild]
  split <;> omega

theorem minChild_min (l : List PlacementRequest) (i n : Nat)
    (h1 : 2 * i + 1 < n) (k : Nat) (hk : (k - 1) / 2 = i) (hk0 : 0 < k)
    (hkn : k < n) : keyAt l (minChild l i n) ≤ keyAt l k := by
  have hk12 : k = 2 * i + 1 ∨ k = 2 * i + 2 := by omega
  rw [minChild]
  split
  · next hc =>
    rcases hk12 with rfl | rfl
    · exact le_of_lt hc.2
    · exact le_refl _
  · next hc =>
    rcases hk12 with rfl | rfl
    · exact le_refl _
    · rw [Classical.not_and_iff_or_not_not] at hc
      rcases hc with hc | hc
      · omega
      · exact not_lt.mp hc

/-- `heapDown` at `i` within the `n`-prefix: if every edge not entering
`i` is ordered and `i`'s children fit below `i`'s parent, the result is a
heap on the prefix, a permutation of the input, and entries from `n` on
are untouched. -/
theorem heapDown_correct (m : Nat) : ∀ (l : List PlacementRequest) (i n : Nat),
    n - i ≤ m → n ≤ l.length →
    (∀ k, 0 < k → k < n → (k - 1) / 2 ≠ i → keyAt l ((k - 1) / 2) ≤ keyAt l k) →
    (0 < i → ∀ k, 0 < k → k < n → (k - 1) / 2 = i →
        keyAt l ((i - 1) / 2) ≤ keyAt l k) →
    IsMinHeapUpTo (heapDown l i n) n ∧ (heapDown l i n).Perm l ∧
      ∀ k, n ≤ k → prAt (heapDown l i n) k = prAt l k := by
  induction m with
  | zero =>
    intro l i n hm hn hext hup
    have hstop : ¬2 * i + 1 < n := by omega
    have hstep : heapDown l i n = l := by
      rw [heapDown, dif_neg hstop]
    rw [hstep]
    refine ⟨fun k hk0 hkn => ?_, List.Perm.refl l, fun k _ => rfl⟩
    exact hext k hk0 hkn (by omega)
  | succ m ih =>
    intro l i n hm hn hext hup
    by_cases h1 : 2 * i + 1 < n
    · by_cases hlt : Priority (prAt l (minChild l i n)) < Priority (prAt l i)
      · have hstep : heapDown l i n =
            heapDown (swapAt l i (minChild l i n)) (minChild l i n) n := by
          rw [heapDown, dif_pos h1, if_pos hlt]
        set j := minChild l i n with hjdef
        obtain ⟨hij, hjn⟩ := minChild_bounds l i n h1
        have hj12 : j = 2 * i + 1 ∨ j = 2 * i + 2 := by
          rw [hjdef, minChild]; split <;> omega
        have hpj : (j - 1) / 2 = i := by
          rcases hj12 with h | h <;> omega
        have hil : i < l.length := by omega
        have hjl : j < l.length := by omega
        have hperm : (swapAt l i j).Perm l := swapAt_perm l i j hil hjl
        have hlen' : n ≤ (swapAt l i j).length := by
          rw [length_swapAt]; exact hn
        have hext' : ∀ k, 0 < k → k < n → (k - 1) / 2 ≠ j →
            keyAt (swapAt l i j) ((k - 1) / 2) ≤ keyAt (swapAt l i j) k := by
          intro k hk0 hkn hkpj
          by_cases hki : k = i
          · have hi0 : 0 < i := by omega
            have hp_ne_i : (i - 1) / 2 ≠ i := by omega
            have hp_ne_j : (i - 1) / 2 ≠ j := by omega
            rw [hki, keyAt_swapAt_other l i j _ hp_ne_i hp_ne_j,
              keyAt_swapAt_left l i j hil hjl]
            exact hup hi0 j (by omega) hjn hpj
          · by_cases hkj : k = j
            · rw [hkj, hpj, keyAt_swapAt_left l i j hil hjl,
                keyAt_swapAt_right l i j hjl]
              exact le_of_lt hlt
            · have hkval : keyAt (swapAt l i j) k = keyAt l k :=
                keyAt_swapAt_other l i j k hki hkj
              by_cases hpi : (k - 1) / 2 = i
              · rw [hpi, keyAt_swapAt_left l i j hil hjl, hkval]
                exact minChild_min l i n h1 k hpi hk0 hkn
              · have hpv : keyAt (swapAt l i j) ((k - 1) / 2) = keyAt l ((k - 1) / 2) :=
                  keyAt_swapAt_other l i j _ hpi hkpj
                rw [hpv, hkval]
                exact hext k hk0 hkn hpi
        have hup' : 0 < j → ∀ k, 0 < k → k < n → (k - 1) / 2 = j →
            keyAt (swapAt l i j) ((j - 1) / 2) ≤ keyAt (swapAt l i j) k := by
          intro _ k hk0 hkn hpk
          have hkgt : j < k := by omega
          rw [hpj, keyAt_swapAt_left l i j hil hjl,
            keyAt_swapAt_other l i j k (by omega) (by omega)]
          have := hext k hk0 hkn (by omega)
          rwa [hpk] at this
        have hres := ih (swapAt l i j) j n (by omega) hlen' hext' hup'
        rw [hstep]
        refine ⟨hres.1, hres.2.1.trans hperm, fun k hk => ?_⟩
        rw [hres.2.2 k hk,
          prAt_swapAt_other l i j k (by omega) (by omega)]
      · have hstep : heapDown l i n = l := by
          rw [heapDown, dif_pos h1, if_neg hlt]
        rw [hstep]
        refine ⟨fun k hk0 hkn => ?_, List.Perm.refl l, fun k _ => rfl⟩
        by_cases hpi : (k - 1) / 2 = i
        · rw [hpi]
          calc keyAt l i ≤ keyAt l (minChild l i n) := not_lt.mp hlt
            _ ≤ keyAt l k := minChild_min l i n h1 k hpi hk0 hkn
        · exact hext k hk0 hkn hpi
    · have hstep : heapDown l i n = l := by
        rw [heapDown, dif_neg h1]
      rw [hstep]
      refine ⟨fun k hk0 hkn => ?_, List.Perm.refl l, fun k _ => rfl⟩
      exact hext k hk0 hkn (by omega)

/-! ### Pop correctness -/

theorem heap_root_min (l : List PlacementRequest) (n : Nat)
    (hq : IsMinHeapUpTo l n) : ∀ j, j < n → keyAt l 0 ≤ keyAt l j := by
  intro j
  induction j using Nat.strong_induction_on with
  | _ j ih =>
    intro hj
    rcases Nat.eq_zero_or_pos j with rfl | hj0
    · exact le_refl _
    · exact le_trans (ih ((j - 1) / 2) (by omega) (by omega)) (hq j hj0 hj)

theorem prAt_take (l : List PlacementRequest) (n k : Nat) (h : k < n) :
    prAt (l.take n) k = prAt l k := by
  simp [prAt, List.getD_eq_getElem?_getD, List.getElem?_take, h]

/-- `Pop` on a nonempty heap returns the root, which carries the minimal
priority of the whole queue; the remainder is again a heap holding
exactly the other requests. -/
theorem queuePop_correct (q : List PlacementRequest) (hq : IsMinHeap q)
    (hne : q ≠ []) :
    ∃ q', queuePop q = some (prAt q 0, q')
      ∧ IsMinHeap q'
      ∧ (q' ++ [prAt q 0]).Perm q
      ∧ (∀ y ∈ q, Priority (prAt q 0) ≤ Priority y)
      ∧ q'.length = q.length - 1 := by
  have h0 : 0 < q.length := List.length_pos.mpr hne
  set n := q.length - 1 with hndef
  have hnl : n < q.length := by omega
  have h0l : 0 < q.length := h0
  set l1 := swapAt q 0 n with hl1def
  have hlen1 : l1.length = q.length := length_swapAt q 0 n
  have hext : ∀ k, 0 < k → k < n → (k - 1) / 2 ≠ 0 →
      keyAt l1 ((k - 1) / 2) ≤ keyAt l1 k := by
    intro k hk0 hkn hp0
    rw [keyAt_swapAt_other q 0 n k (by omega) (by omega),
      keyAt_swapAt_other q 0 n _ (by omega) (by omega)]
    exact hq k hk0 (by omega)
  have hd := heapDown_correct n l1 0 n (by omega) (by omega) hext (by omega)
  set l2 := heapDown l1 0 n with hl2def
  have hlen2 : l2.length = q.length := by
    rw [hd.2.1.length_eq, hlen1]
  have hroot : prAt l2 n = prAt q 0 := by
    rw [hd.2.2 n (le_refl n), hl1def, prAt_swapAt_right q 0 n (by omega)]
  have hpop : queuePop q = some (prAt q 0, l2.take n) := by
    rw [queuePop, if_neg (by omega)]
    show some (prAt (heapDown (swapAt q 0 n) 0 n) n,
      List.take n (heapDown (swapAt q 0 n) 0 n)) = some (prAt q 0, l2.take n)
    rw [← hl1def, ← hl2def, hroot]
  refine ⟨l2.take n, hpop, ?_, ?_, ?_, ?_⟩
  · have hlt : (l2.take n).length = n := by
      rw [List.length_take]
      omega
    rw [IsMinHeap, hlt]
    intro k hk0 hkn
    have e1 := prAt_take l2 n k hkn
    have e2 := prAt_take l2 n ((k - 1) / 2) (by omega)
    show Priority (prAt (l2.take n) ((k - 1) / 2)) ≤ Priority (prAt (l2.take n) k)
    rw [show prAt (l2.take n) k = prAt l2 k from e1,
      show prAt (l2.take n) ((k - 1) / 2) = prAt l2 ((k - 1) / 2) from e2]
    exact hd.1 k hk0 hkn
  · have hnlt2 : n < l2.length := by omega
    have heq : l2.take n ++ [prAt q 0] = l2 := by
      rw [← hroot, prAt_eq_getElem l2 n hnlt2, ← List.concat_eq_append,
        List.take_concat_get l2 n hnlt2]
      exact List.take_of_length_le (by omega)
    rw [heq]
    exact hd.2.1.trans (swapAt_perm q 0 n (by omega) (by omega))
  · intro y hy
    obtain ⟨j, hj, rfl⟩ := List.mem_iff_getElem.mp hy
    have := heap_root_min q q.length hq j hj
    rw [keyAt, keyAt, prAt_eq_getElem q j hj] at this
    exact this
  · rw [List.length_take]
    omega

/-- `Pop` returns `nil` exactly on the empty queue. -/
theorem queuePop_none_iff (q : List PlacementRequest) :
    queuePop q = none ↔ q = [] := by
  rw [queuePop]
  constructor
  · intro h
    by_cases hl : q.length = 0
    · exact List.length_eq_zero.mp hl
    · rw [if_neg hl] at h
      cases h
  · intro h
    subst h
    rfl

/-! ### Draining the queue -/

/-- Push a batch of requests onto an initially empty queue. -/
def pushList (prs : List PlacementRequest) : List PlacementRequest :=
  prs.foldl queuePush []

theorem pushList_correct_aux (prs : List PlacementRequest) :
    ∀ q, IsMinHeap q →
    IsMinHeap (prs.foldl queuePush q) ∧ (prs.foldl queuePush q).Perm (q ++ prs) := by
  induction prs with
  | nil =>
    intro q hq
    simp only [List.foldl_nil, List.append_nil]
    exact ⟨hq, List.Perm.refl q⟩
  | cons pr rest ih =>
    intro q hq
    have hpush := queuePush_correct q pr hq
    have hres := ih (queuePush q pr) hpush.1
    refine ⟨hres.1, ?_⟩
    have h3 : (q ++ [pr]) ++ rest = q ++ pr :: rest := by simp
    exact hres.2.trans (h3 ▸ hpush.2.append_right rest)

theorem pushList_correct (prs : List PlacementRequest) :
    IsMinHeap (pushList prs) ∧ (pushList prs).Perm prs := by
  have hnil : IsMinHeap ([] : List PlacementRequest) :=
    fun k _ hkn => absurd hkn (by simp)
  have h := pushList_correct_aux prs [] hnil
  simpa [pushList] using h

theorem queuePop_some_length {q : List PlacementRequest}
    {x : PlacementRequest} {q' : List PlacementRequest}
    (h : queuePop q = some (x, q')) : q'.length < q.length := by
  rw [queuePop] at h
  by_cases hl : q.length = 0
  · rw [if_pos hl] at h
    cases h
  · rw [if_neg hl] at h
    simp only [Option.some.injEq, Prod.mk.injEq] at h
    rw [← h.2, List.length_take]
    omega

/-- Successive `Pop` calls until the queue reports empty. -/
def drainQueue (q : List PlacementRequest) : List PlacementRequest :=
  match h : queuePop q with
  | none => []
  | some (x, q') => x :: drainQueue q'
  termination_by q.length
  decreasing_by exact queuePop_some_length h

theorem drainQueue_correct (fuel : Nat) : ∀ q : List PlacementRequest,
    q.length ≤ fuel → IsMinHeap q →
    q.Pairwise (fun a b => Priority a ≠ Priority b) →
    (drainQueue q).Perm q
    ∧ (drainQueue q).Pairwise (fun a b => Priority a < Priority b) := by
  induction fuel with
  | zero =>
    intro q hfuel _ _
    have hq : q = [] := List.length_eq_zero.mp (by omega)
    subst hq
    rw [drainQueue]
    exact ⟨List.Perm.refl _, List.Pairwise.nil⟩
  | succ fuel ih =>
    intro q hfuel hheap hdist
    by_cases hne : q = []
    · subst hne
      rw [drainQueue]
      exact ⟨List.Perm.refl _, List.Pairwise.nil⟩
    · obtain ⟨q', hpop, hheap', hperm, hmin, hlen⟩ := queuePop_correct q hheap hne
      have hstep : drainQueue q = prAt q 0 :: drainQueue q' := by
        rw [drainQueue]
        split
        · next hnone => rw [hpop] at hnone; cases hnone
        · next x qq hsome =>
          rw [hpop] at hsome
          simp only [Option.some.injEq, Prod.mk.injEq] at hsome
          rw [hsome.1, hsome.2]
      have hlenq : 0 < q.length := List.length_pos.mpr hne
      have hdist2 : (q' ++ [prAt q 0]).Pairwise (fun a b => Priority a ≠ Priority b) :=
        (hperm.pairwise_iff Ne.symm).mpr hdist
      have hdist' : q'.Pairwise (fun a b => Priority a ≠ Priority b) :=
        (List.pairwise_append.mp hdist2).1
      have hne' : ∀ y ∈ q', Priority y ≠ Priority (prAt q 0) := by
        intro y hy
        exact (List.pairwise_append.mp hdist2).2.2 y hy (prAt q 0) (List.mem_singleton_self _)
      have hres := ih q' (by omega) hheap' hdist'
      rw [hstep]
      constructor
      · have hp1 : (prAt q 0 :: drainQueue q').Perm (prAt q 0 :: q') :=
          hres.1.cons (prAt q 0)
        have hp2 : (prAt q 0 :: q').Perm (q' ++ [prAt q 0]) :=
          (List.perm_append_singleton _ _).symm
        exact (hp1.trans hp2).trans hperm
      · rw [List.pairwise_cons]
        refine ⟨?_, hres.2⟩
        intro y hy
        have hyq' : y ∈ q' := hres.1.mem_iff.mp hy
        have hyq : y ∈ q := hperm.mem_iff.mp (List.mem_append_left _ hyq')
        exact lt_of_le_of_ne (hmin y hyq) ((hne' y hyq').symm)

/-! ## C4: FIFO by creation time on a single queue -/

/-- C4: for any sequence of `Push` calls with distinct creation
timestamps on a single `PlacementRequestQueue`, successive `Pop` calls
return the requests in strictly increasing creation-timestamp order and
return each pushed request exactly once; on any heap state a `Pop`
returns the earliest-created request still in the queue; and `Pop`
returns `nil` exactly when the queue is empty. -/
theorem queue_pops_in_creation_order (prs : List PlacementRequest)
    (hdist : prs.Pairwise (fun a b => a.creationTimestamp ≠ b.creationTimestamp)) :
    (drainQueue (pushList prs)).Perm prs
    ∧ (drainQueue (pushList prs)).Pairwise
        (fun a b => a.creationTimestamp < b.creationTimestamp)
    ∧ (∀ q, queuePop q = none ↔ q = [])
    ∧ (∀ q, IsMinHeap q → q ≠ [] →
        ∃ q', queuePop q = some (prAt q 0, q')
          ∧ ∀ y ∈ q, (prAt q 0).creationTimestamp ≤ y.creationTimestamp) := by
  obtain ⟨hheap, hperm⟩ := pushList_correct prs
  have hdist' : (pushList prs).Pairwise (fun a b => Priority a ≠ Priority b) :=
    (hperm.pairwise_iff Ne.symm).mpr hdist
  have hdrain := drainQueue_correct (pushList prs).length (pushList prs)
    (le_refl _) hheap hdist'
  refine ⟨hdrain.1.trans hperm, hdrain.2, queuePop_none_iff, ?_⟩
  intro q hq hne
  obtain ⟨q', hpop, _, _, hmin, _⟩ := queuePop_correct q hq hne
  exact ⟨q', hpop, hmin⟩

/-- Three concrete requests distinguished only by creation timestamp. -/
def prWithTs (ts : Int) : PlacementRequest :=
  { (default : PlacementRequest) with creationTimestamp := ts }

/-- Witness for C4: pushing timestamps 30, 10, 20 and draining returns a
permutation of the pushes in strictly increasing creation-timestamp
order. -/
theorem queue_pops_in_creation_order_witness :
    (drainQueue (pushList [prWithTs 30, prWithTs 10, prWithTs 20])).Perm
      [prWithTs 30, prWithTs 10, prWithTs 20]
    ∧ (drainQueue (pushList [prWithTs 30, prWithTs 10, prWithTs 20])).Pairwise
        (fun a b => a.creationTimestamp < b.creationTimestamp) := by
  have h := queue_pops_in_creation_order [prWithTs 30, prWithTs 10, prWithTs 20]
    (by decide)
  exact ⟨h.1, h.2.1⟩

/-! ## Round-robin reader: `pkg/queue/round-robin.go`

`NewRoundRobinReader` computes each queue's quota with IEEE-754 binary64
arithmetic (`float64` conversions, a division, a multiplication and
`math.Ceil`).  The model below implements binary64 round-to-nearest-even
exactly on nonnegative rationals represented as numerator/denominator
pairs: for the magnitudes reachable from `uint` weights no overflow or
subnormal rounding occurs, so rounding the unbounded-exponent value to
53 significant bits is exact binary64 semantics. -/

/-- `MinimumBindings` (`round-robin.go`). -/
def MinimumBindings : Nat := 10

/-- Fueled floor-log2 (structural recursion, so kernel-reducible; the
fuel bounds the bit length of the argument). -/
def log2fuel : Nat → Nat → Nat
  | 0, _ => 0
  | f + 1, n => if 2 ≤ n then log2fuel f (n / 2) + 1 else 0

theorem log2fuel_bounds : ∀ (f n : Nat), 1 ≤ n → n < 2 ^ f →
    2 ^ log2fuel f n ≤ n ∧ n < 2 ^ (log2fuel f n + 1) := by
  intro f
  induction f with
  | zero =>
    intro n h1 h2
    simp at h2
    omega
  | succ f ih =>
    intro n h1 h2
    have hp : 2 ^ (f + 1) = 2 * 2 ^ f := by ring
    by_cases h : 2 ≤ n
    · have hd1 : 1 ≤ n / 2 := by omega
      have hd2 : n / 2 < 2 ^ f := by omega
      obtain ⟨ihl, ihr⟩ := ih (n / 2) hd1 hd2
      have hstep : log2fuel (f + 1) n = log2fuel f (n / 2) + 1 := by
        rw [log2fuel, if_pos h]
      rw [hstep]
      have hp1 : 2 ^ (log2fuel f (n / 2) + 1) = 2 * 2 ^ log2fuel f (n / 2) := by ring
      have hp2 : 2 ^ (log2fuel f (n / 2) + 1 + 1) = 2 * 2 ^ (log2fuel f (n / 2) + 1) := by
        ring
      omega
    · have hn1 : n = 1 := by omega
      subst hn1
      have hstep : log2fuel (f + 1) 1 = 0 := by
        rw [log2fuel]
        simp
      rw [hstep]
      simp

/-- An exactly represented nonnegative binary64 value `n / d`. -/
structure FVal where
  n : Nat
  d : Nat
deriving DecidableEq, Repr

/-- Fuel for the exponent search: covers all values occurring in quota
computations from `uint` weights with a wide margin. -/
def rposFuel : Nat := 1200

/-- Round `num / den` to the nearest integer, ties to the even
mantissa. -/
def roundHalfEven (num den : Nat) : Nat :=
  if den < 2 * (num % den) ∨ (2 * (num % den) = den ∧ num / den % 2 = 1) then
    num / den + 1
  else
    num / den

/-- Mantissa extraction at binade `L - 200` (the scaled floor-log2 of
the value): scale the value into `[2^52, 2^53)`, round, and rebuild. -/
def roundPosAux (n d L : Nat) : FVal :=
  if L ≤ 252 then
    ⟨roundHalfEven (n * 2 ^ (252 - L)) d, 2 ^ (252 - L)⟩
  else
    ⟨roundHalfEven n (d * 2 ^ (L - 252)) * 2 ^ (L - 252), 1⟩

/-- Round the positive rational `n / d` to the nearest (ties to even)
value with 53 significant bits — binary64 rounding for the magnitudes in
scope.  The binade is located through the `2^200`-scaled integer
`n * 2^200 / d`. -/
def roundPos (n d : Nat) : FVal :=
  roundPosAux n d (log2fuel rposFuel (n * 2 ^ 200 / d))

/-- `float64(w)` for a `uint` weight. -/
def float64OfNat (w : Nat) : FVal := roundPos w 1

/-- Binary64 division `x / y` (correctly rounded). -/
def fdiv (x y : FVal) : FVal := roundPos (x.n * y.d) (x.d * y.n)

/-- Binary64 product of a small integer constant and `x`. -/
def fmulNat (k : Nat) (x : FVal) : FVal := roundPos (k * x.n) x.d

/-- `math.Ceil(x)` for positive `x`: the exact ceiling.  The ceiling of
a binary64 value is always exactly representable (below `2^52` all
integers are representable; above, the value is already integral), so
the result is returned as its integer value. -/
def fceil (x : FVal) : Nat := (x.n + x.d - 1) / x.d

/-- Go `int(v)` for a nonnegative integral `float64` value `v`: the
value itself when it fits in `int64`; out of range the conversion is
implementation-defined — this model follows the gc compiler on amd64,
which yields `-2^63`. -/
def intOfFloat (v : Nat) : Int :=
  if v < 2 ^ 63 then (v : Int) else -(2 ^ 63)

/-- The exact value of
`math.Ceil(float64(w) / float64(m) * float64(MinimumBindings))` for
weight `w` and lightest weight `m`. -/
def maximumBindingsCeil (w m : Nat) : Nat :=
  fceil (fmulNat MinimumBindings (fdiv (float64OfNat w) (float64OfNat m)))

/-- The stored quota `MaximumBindings = int(maxbindings)` computed by
`NewRoundRobinReader`: the `math.Ceil` value pushed through the Go
`int` conversion. -/
def maximumBindingsOf (w m : Nat) : Int :=
  intOfFloat (maximumBindingsCeil w m)

/-! ### Rounding lemmas -/

theorem roundHalfEven_exact (num den : Nat) (hden : 0 < den)
    (hdvd : den ∣ num) : roundHalfEven num den = num / den := by
  rw [roundHalfEven, Nat.mod_eq_zero_of_dvd hdvd]
  rw [if_neg]
  push_neg
  exact ⟨by omega, fun h => absurd h.symm (by omega)⟩

theorem roundHalfEven_ge (num den : Nat) :
    num / den ≤ roundHalfEven num den := by
  rw [roundHalfEven]
  split <;> omega

theorem roundHalfEven_le (num den : Nat) :
    roundHalfEven num den ≤ num / den + 1 := by
  rw [roundHalfEven]
  split <;> omega

/-- Rounding an exactly representable quotient `q = n / d` with
`q < 2^53` returns exactly `q` (as a dyadic pair). -/
theorem roundPos_exact (d q : Nat) (hd : 0 < d) (hq1 : 1 ≤ q)
    (hq2 : q < 2 ^ 53) :
    ∃ sh, roundPos (q * d) d = ⟨q * 2 ^ sh, 2 ^ sh⟩ := by
  have hdiv : q * d * 2 ^ 200 / d = q * 2 ^ 200 := by
    rw [show q * d * 2 ^ 200 = q * 2 ^ 200 * d by ring]
    exact Nat.mul_div_cancel _ hd
  have h1 : 1 ≤ q * 2 ^ 200 := Nat.one_le_iff_ne_zero.mpr (by positivity)
  have hq253 : q * 2 ^ 200 < 2 ^ 253 := by
    calc q * 2 ^ 200 < 2 ^ 53 * 2 ^ 200 :=
          (Nat.mul_lt_mul_right (by positivity)).mpr hq2
      _ = 2 ^ 253 := by ring
  have h2 : q * 2 ^ 200 < 2 ^ rposFuel :=
    lt_of_lt_of_le hq253 (Nat.pow_le_pow_right (by norm_num) (by norm_num [rposFuel]))
  obtain ⟨hLl, hLu⟩ := log2fuel_bounds rposFuel (q * 2 ^ 200) h1 h2
  set L := log2fuel rposFuel (q * 2 ^ 200) with hLdef
  have hL252 : L ≤ 252 := by
    have hlt : 2 ^ L < 2 ^ 253 := lt_of_le_of_lt hLl hq253
    have := (Nat.pow_lt_pow_iff_right (by norm_num : 1 < 2)).mp hlt
    omega
  refine ⟨252 - L, ?_⟩
  rw [roundPos, hdiv, ← hLdef, roundPosAux, if_pos hL252]
  have hrhe : roundHalfEven (q * d * 2 ^ (252 - L)) d = q * 2 ^ (252 - L) := by
    rw [roundHalfEven_exact _ _ hd ⟨q * 2 ^ (252 - L), by ring⟩,
      show q * d * 2 ^ (252 - L) = q * 2 ^ (252 - L) * d by ring]
    exact Nat.mul_div_cancel _ hd
  rw [hrhe]

set_option maxRecDepth 8000 in
/-- Bounds of the rounded value: mantissa at least `2^52`, denominator a
power of two up to `2^252`, the value within a factor two of the input,
and the numerator at most `2n + 2^53`. -/
theorem roundPos_bounds (n d : Nat) (hn : 1 ≤ n) (hd : 0 < d)
    (hval : d ≤ n * 2 ^ 200) (hn8 : n < 2 ^ 800) :
    2 ^ 52 ≤ (roundPos n d).n ∧ 0 < (roundPos n d).d
    ∧ (roundPos n d).d ≤ 2 ^ 252
    ∧ (roundPos n d).n * d ≤ 2 * (n * (roundPos n d).d)
    ∧ n * (roundPos n d).d ≤ 2 * ((roundPos n d).n * d)
    ∧ (roundPos n d).n ≤ 2 * n + 2 ^ 53 := by
  have hX1 : 1 ≤ n * 2 ^ 200 / d := (Nat.one_le_div_iff hd).mpr hval
  have hX2 : n * 2 ^ 200 / d < 2 ^ rposFuel := by
    have h1 : n * 2 ^ 200 / d ≤ n * 2 ^ 200 := Nat.div_le_self _ _
    have h2 : n * 2 ^ 200 < 2 ^ 1000 := by
      calc n * 2 ^ 200 < 2 ^ 800 * 2 ^ 200 :=
            (Nat.mul_lt_mul_right (by positivity)).mpr hn8
        _ = 2 ^ 1000 := by ring
    have h3 : (2 ^ 1000 : Nat) ≤ 2 ^ rposFuel :=
      Nat.pow_le_pow_right (by norm_num) (by norm_num [rposFuel])
    omega
  obtain ⟨hLl, hLu⟩ := log2fuel_bounds rposFuel (n * 2 ^ 200 / d) hX1 hX2
  set L := log2fuel rposFuel (n * 2 ^ 200 / d) with hLdef
  have hA : 2 ^ L * d ≤ n * 2 ^ 200 := (Nat.le_div_iff_mul_le hd).mp hLl
  have hB : n * 2 ^ 200 < 2 ^ (L + 1) * d :=
    (Nat.div_lt_iff_lt_mul hd).mp hLu
  rw [roundPos, ← hLdef, roundPosAux]
  by_cases hL : L ≤ 252
  · rw [if_pos hL]
    simp only
    set num := n * 2 ^ (252 - L) with hnum
    set m1 := roundHalfEven num d with hm1
    have hm0l : 2 ^ 52 * d ≤ num := by
      have h1 : 2 ^ L * d * 2 ^ (252 - L) ≤ n * 2 ^ 200 * 2 ^ (252 - L) :=
        Nat.mul_le_mul_right _ hA
      have h2 : 2 ^ L * d * 2 ^ (252 - L) = 2 ^ 52 * d * 2 ^ 200 := by
        rw [show 2 ^ L * d * 2 ^ (252 - L) = d * (2 ^ L * 2 ^ (252 - L)) by ring,
          ← Nat.pow_add, show L + (252 - L) = 252 by omega]
        ring
      have h3 : n * 2 ^ 200 * 2 ^ (252 - L) = num * 2 ^ 200 := by
        rw [hnum]
        ring
      rw [h2, h3] at h1
      exact Nat.le_of_mul_le_mul_right h1 (by positivity)
    have hm0u : num < 2 ^ 53 * d := by
      have h1 : n * 2 ^ 200 * 2 ^ (252 - L) < 2 ^ (L + 1) * d * 2 ^ (252 - L) :=
        (Nat.mul_lt_mul_right (by positivity)).mpr hB
      have h2 : 2 ^ (L + 1) * d * 2 ^ (252 - L) = 2 ^ 53 * d * 2 ^ 200 := by
        rw [show 2 ^ (L + 1) * d * 2 ^ (252 - L) = d * (2 ^ (L + 1) * 2 ^ (252 - L)) by ring,
          ← Nat.pow_add, show L + 1 + (252 - L) = 253 by omega]
        ring
      have h3 : n * 2 ^ 200 * 2 ^ (252 - L) = num * 2 ^ 200 := by
        rw [hnum]
        ring
      rw [h2, h3] at h1
      exact Nat.lt_of_mul_lt_mul_right h1
    have hdle : d ≤ num := by
      have h1 : (1 : Nat) * d ≤ 2 ^ 52 * d :=
        Nat.mul_le_mul_right d Nat.one_le_two_pow
      omega
    have hm0ge : 2 ^ 52 ≤ num / d := (Nat.le_div_iff_mul_le hd).mpr hm0l
    have hm0lt : num / d < 2 ^ 53 := (Nat.div_lt_iff_lt_mul hd).mpr (by omega)
    have hge := roundHalfEven_ge num d
    have hle := roundHalfEven_le num d
    have hfloor : d * (num / d) ≤ num := Nat.mul_div_le num d
    have hceil : num < (num / d + 1) * d := by
      have hmod := Nat.mod_lt num hd
      have hdm := Nat.div_add_mod num d
      have heq : (num / d + 1) * d = d * (num / d) + d := by ring
      omega
    refine ⟨by omega, by positivity,
      Nat.pow_le_pow_right (by norm_num) (by omega), ?_, ?_, by omega⟩
    · have h1 : m1 * d ≤ (num / d + 1) * d := Nat.mul_le_mul_right d (by omega)
      have h2 : (num / d + 1) * d = d * (num / d) + d := by ring
      have h3 : m1 * d ≤ 2 * num := by omega
      calc m1 * d ≤ 2 * num := h3
        _ = 2 * (n * 2 ^ (252 - L)) := by rw [hnum]
    · have h2 : num / d + 1 ≤ 2 * (num / d) := by omega
      have h3 : (num / d + 1) * d ≤ 2 * (num / d) * d := Nat.mul_le_mul_right d h2
      have h5 : 2 * (num / d) * d ≤ 2 * m1 * d := Nat.mul_le_mul_right d (by omega)
      calc n * 2 ^ (252 - L) = num := by rw [hnum]
        _ ≤ 2 * m1 * d := by omega
        _ = 2 * (m1 * d) := by ring
  · rw [if_neg hL]
    simp only
    set den := d * 2 ^ (L - 252) with hden
    set m1 := roundHalfEven n den with hm1
    have hdenpos : 0 < den := by
      rw [hden]
      positivity
    have hm0l : 2 ^ 52 * den ≤ n := by
      have h1 : 2 ^ L * d = 2 ^ 52 * den * 2 ^ 200 := by
        rw [hden, show 2 ^ 52 * (d * 2 ^ (L - 252)) * 2 ^ 200 =
          d * (2 ^ 52 * 2 ^ (L - 252) * 2 ^ 200) by ring,
          ← Nat.pow_add, ← Nat.pow_add, show 52 + (L - 252) + 200 = L by omega]
        ring
      have h2 : 2 ^ 52 * den * 2 ^ 200 ≤ n * 2 ^ 200 := by
        rw [← h1]
        exact hA
      exact Nat.le_of_mul_le_mul_right h2 (by positivity)
    have hm0u : n < 2 ^ 53 * den := by
      have h1 : 2 ^ (L + 1) * d = 2 ^ 53 * den * 2 ^ 200 := by
        rw [hden, show 2 ^ 53 * (d * 2 ^ (L - 252)) * 2 ^ 200 =
          d * (2 ^ 53 * 2 ^ (L - 252) * 2 ^ 200) by ring,
          ← Nat.pow_add, ← Nat.pow_add, show 53 + (L - 252) + 200 = L + 1 by omega]
        ring
      have h2 : n * 2 ^ 200 < 2 ^ 53 * den * 2 ^ 200 := by
        rw [← h1]
        exact hB
      exact Nat.lt_of_mul_lt_mul_right h2
    have hdle : den ≤ n := by
      have h1 : (1 : Nat) * den ≤ 2 ^ 52 * den :=
        Nat.mul_le_mul_right den Nat.one_le_two_pow
      omega
    have hm0ge : 2 ^ 52 ≤ n / den := (Nat.le_div_iff_mul_le hdenpos).mpr hm0l
    have hm0lt : n / den < 2 ^ 53 := (Nat.div_lt_iff_lt_mul hdenpos).mpr (by omega)
    have hge := roundHalfEven_ge n den
    have hle := roundHalfEven_le n den
    have hfloor : den * (n / den) ≤ n := Nat.mul_div_le n den
    have hceil : n < (n / den + 1) * den := by
      have hmod := Nat.mod_lt n hdenpos
      have hdm := Nat.div_add_mod n den
      have heq : (n / den + 1) * den = den * (n / den) + den := by ring
      omega
    have hkey : m1 * 2 ^ (L - 252) * d = m1 * den := by
      rw [hden]
      ring
    have hd1 : m1 * den ≤ 2 * n := by
      have h1 : m1 * den ≤ (n / den + 1) * den := Nat.mul_le_mul_right den (by omega)
      have h2 : (n / den + 1) * den = den * (n / den) + den := by ring
      omega
    refine ⟨?_, by norm_num, Nat.one_le_two_pow, ?_, ?_, ?_⟩
    · have h1 : (1 : Nat) ≤ 2 ^ (L - 252) := Nat.one_le_two_pow
      calc 2 ^ 52 ≤ m1 := by omega
        _ = m1 * 1 := (Nat.mul_one m1).symm
        _ ≤ m1 * 2 ^ (L - 252) := Nat.mul_le_mul_left m1 h1
    · rw [hkey]
      have : (2 : Nat) * (n * 1) = 2 * n := by ring
      omega
    · have h2 : n / den + 1 ≤ 2 * (n / den) := by omega
      have h3 : (n / den + 1) * den ≤ 2 * (n / den) * den := Nat.mul_le_mul_right den h2
      have h5 : 2 * (n / den) * den ≤ 2 * m1 * den := Nat.mul_le_mul_right den (by omega)
      have h6 : n < 2 * m1 * den := by omega
      rw [Nat.mul_one]
      calc n ≤ 2 * m1 * den := le_of_lt h6
        _ = 2 * (m1 * 2 ^ (L - 252) * d) := by rw [hkey]; ring
    · have h1 : m1 * 2 ^ (L - 252) * 1 ≤ m1 * 2 ^ (L - 252) * d :=
        Nat.mul_le_mul_left _ (by omega)
      have h2 : m1 * 2 ^ (L - 252) * d = m1 * den := hkey
      omega

/-! ### Quota computation lemmas -/

theorem fceil_pow (A e : Nat) :
    fceil ⟨A * 2 ^ e, 2 ^ e⟩ = A := by
  rw [fceil]
  simp only
  have hD : (1 : Nat) ≤ 2 ^ e := Nat.one_le_two_pow
  have hc : A * 2 ^ e = 2 ^ e * A := Nat.mul_comm _ _
  have h1 : A * 2 ^ e + 2 ^ e - 1 = (2 ^ e - 1) + 2 ^ e * A := by omega
  rw [h1, Nat.add_mul_div_left _ _ (by positivity : 0 < (2:Nat) ^ e),
    Nat.div_eq_of_lt (by omega)]
  omega

set_option maxRecDepth 8000 in
/-- The `math.Ceil` value of the lightest queue itself is always exactly
10, for any `uint` weight. -/
theorem maximumBindingsCeil_self (w : Nat) (hw1 : 1 ≤ w) (hw2 : w < 2 ^ 64) :
    maximumBindingsCeil w w = 10 := by
  have hw8 : w < 2 ^ 800 :=
    lt_of_lt_of_le hw2 (Nat.pow_le_pow_right (by norm_num) (by norm_num))
  obtain ⟨hx52, hxd, -, -, -, -⟩ := roundPos_bounds w 1 hw1 (by norm_num)
    (le_trans (by omega) (Nat.le_mul_of_pos_right w (by positivity))) hw8
  rw [maximumBindingsCeil, fmulNat, fdiv, float64OfNat]
  set x := roundPos w 1 with hxdef
  have hN1 : 1 ≤ x.n * x.d := Nat.one_le_iff_ne_zero.mpr
    (Nat.mul_ne_zero (by omega) (by omega))
  have harg : x.d * x.n = x.n * x.d := Nat.mul_comm _ _
  rw [harg]
  have hexact := roundPos_exact (x.n * x.d) 1 (by omega) (by norm_num)
    (by norm_num)
  rw [Nat.one_mul] at hexact
  obtain ⟨c, hc⟩ := hexact
  rw [hc]
  have h10 := roundPos_exact (2 ^ c) 10 (by positivity) (by norm_num) (by norm_num)
  obtain ⟨e, he⟩ := h10
  simp only at he ⊢
  rw [show MinimumBindings * (1 * 2 ^ c) = 10 * 2 ^ c by rw [MinimumBindings]; ring,
    he, fceil_pow]

set_option maxRecDepth 8000 in
/-- When the weight ratio is an exact integer small enough to stay
representable after scaling by 10, the computed quota is the exact
ceiling `10 * w / m`. -/
theorem maximumBindingsCeil_exact (w m : Nat) (hm1 : 1 ≤ m) (hmw : m ≤ w)
    (hw53 : w < 2 ^ 53) (hdvd : m ∣ w) (h10 : 10 * (w / m) < 2 ^ 53) :
    maximumBindingsCeil w m = 10 * (w / m) := by
  obtain ⟨q, hq⟩ := hdvd
  have hq1 : 1 ≤ q := by
    rcases Nat.eq_zero_or_pos q with rfl | h
    · omega
    · exact h
  have hwq : w / m = q := by
    rw [hq]
    exact Nat.mul_div_cancel_left q (by omega)
  have hq53 : q < 2 ^ 53 := by
    have : q ≤ w := by
      calc q ≤ m * q := Nat.le_mul_of_pos_left q (by omega)
        _ = w := hq.symm
    omega
  rw [maximumBindingsCeil, fmulNat, fdiv, float64OfNat, float64OfNat]
  obtain ⟨a, ha⟩ := roundPos_exact 1 w (by norm_num) (by omega) hw53
  obtain ⟨b, hb⟩ := roundPos_exact 1 m (by norm_num) hm1 (by omega)
  rw [Nat.mul_one] at ha hb
  rw [ha, hb]
  simp only
  have hargs : w * 2 ^ a * 2 ^ b = q * (2 ^ a * (m * 2 ^ b)) := by
    rw [hq]
    ring
  rw [hargs]
  obtain ⟨c, hc⟩ := roundPos_exact (2 ^ a * (m * 2 ^ b)) q (by positivity) hq1 hq53
  rw [hc]
  simp only
  have hmul : MinimumBindings * (q * 2 ^ c) = (10 * q) * 2 ^ c := by
    rw [MinimumBindings]
    ring
  rw [hmul]
  obtain ⟨e, he⟩ := roundPos_exact (2 ^ c) (10 * q) (by positivity) (by omega)
    (by omega)
  rw [he, fceil_pow, hwq]

set_option maxRecDepth 8000 in
/-- The `math.Ceil` value is at least 1 for any weights in `uint` range:
all intermediate binary64 values are positive and `math.Ceil` of a
positive value is at least 1. -/
theorem maximumBindingsCeil_pos (w m : Nat) (hw1 : 1 ≤ w) (hw2 : w < 2 ^ 64)
    (hm1 : 1 ≤ m) (hm2 : m < 2 ^ 64) : 1 ≤ maximumBindingsCeil w m := by
  have hpow : ∀ i j : Nat, i ≤ j → (2:Nat) ^ i ≤ 2 ^ j :=
    fun i j h => Nat.pow_le_pow_right (by norm_num) h
  have hw8 : w < 2 ^ 800 := lt_of_lt_of_le hw2 (hpow 64 800 (by norm_num))
  have hm8 : m < 2 ^ 800 := lt_of_lt_of_le hm2 (hpow 64 800 (by norm_num))
  obtain ⟨hx52, hxd, hxd252, hxv1, hxv2, hxn⟩ := roundPos_bounds w 1 hw1
    (by norm_num) (le_trans (by omega) (Nat.le_mul_of_pos_right w (by positivity))) hw8
  obtain ⟨hy52, hyd, hyd252, hyv1, hyv2, hyn⟩ := roundPos_bounds m 1 hm1
    (by norm_num) (le_trans (by omega) (Nat.le_mul_of_pos_right m (by positivity))) hm8
  rw [maximumBindingsCeil, fmulNat, fdiv, float64OfNat, float64OfNat]
  set x := roundPos w 1 with hxdef
  set y := roundPos m 1 with hydef
  clear_value x y
  rw [Nat.mul_one] at hxv1 hxv2 hyv1 hyv2
  -- bounds for the division arguments
  have hn1pos : 1 ≤ x.n * y.d := Nat.one_le_iff_ne_zero.mpr
    (Nat.mul_ne_zero (by omega) (by omega))
  have hd1pos : 0 < x.d * y.n := Nat.mul_pos (by omega) (by omega)
  have hxd2xn : x.d ≤ 2 * x.n := by
    have h1 : x.d ≤ w * x.d := Nat.le_mul_of_pos_left x.d (by omega)
    omega
  have hyn2myd : y.n ≤ 2 * (m * y.d) := hyv1
  have hval : x.d * y.n ≤ x.n * y.d * 2 ^ 200 := by
    have h1 : x.d * y.n ≤ (2 * x.n) * (2 * (m * y.d)) :=
      Nat.mul_le_mul hxd2xn hyn2myd
    have h2 : (2 * x.n) * (2 * (m * y.d)) = 4 * m * (x.n * y.d) := by ring
    have h3 : 4 * m * (x.n * y.d) ≤ 4 * 2 ^ 64 * (x.n * y.d) := by
      have := Nat.mul_le_mul_right (x.n * y.d)
        (Nat.mul_le_mul_left 4 (le_of_lt hm2))
      omega
    have h4 : 4 * 2 ^ 64 * (x.n * y.d) ≤ 2 ^ 200 * (x.n * y.d) := by
      have hc : (4 * 2 ^ 64 : Nat) ≤ 2 ^ 200 := by
        have : (4 * 2 ^ 64 : Nat) = 2 ^ 66 := by norm_num
        rw [this]
        exact hpow 66 200 (by norm_num)
      exact Nat.mul_le_mul_right _ hc
    have h5 : 2 ^ 200 * (x.n * y.d) = x.n * y.d * 2 ^ 200 := Nat.mul_comm _ _
    omega
  have hxn66 : x.n < 2 ^ 66 := by
    have : 2 * w + 2 ^ 53 < 2 ^ 66 := by
      have h1 : 2 * w < 2 ^ 65 := by
        have : (2 : Nat) ^ 65 = 2 * 2 ^ 64 := by ring
        omega
      have h2 : (2:Nat) ^ 65 + 2 ^ 53 ≤ 2 ^ 66 := by
        have h3 : (2:Nat) ^ 53 ≤ 2 ^ 65 := hpow 53 65 (by norm_num)
        have h4 : (2:Nat) ^ 66 = 2 ^ 65 + 2 ^ 65 := by ring
        omega
      omega
    omega
  have hyn66 : y.n < 2 ^ 66 := by
    have : 2 * m + 2 ^ 53 < 2 ^ 66 := by
      have h1 : 2 * m < 2 ^ 65 := by
        have : (2 : Nat) ^ 65 = 2 * 2 ^ 64 := by ring
        omega
      have h2 : (2:Nat) ^ 65 + 2 ^ 53 ≤ 2 ^ 66 := by
        have h3 : (2:Nat) ^ 53 ≤ 2 ^ 65 := hpow 53 65 (by norm_num)
        have h4 : (2:Nat) ^ 66 = 2 ^ 65 + 2 ^ 65 := by ring
        omega
      omega
    omega
  have hpoweq : ∀ i j k : Nat, i + j = k → (2:Nat) ^ i * 2 ^ j = 2 ^ k := by
    intro i j k h
    rw [← Nat.pow_add, h]
  have hn1size : x.n * y.d < 2 ^ 800 := by
    have h1 : x.n * y.d ≤ 2 ^ 66 * 2 ^ 252 :=
      Nat.mul_le_mul (le_of_lt hxn66) hyd252
    have h2 : (2:Nat) ^ 66 * 2 ^ 252 = 2 ^ 318 := hpoweq 66 252 318 (by norm_num)
    have h3 : (2:Nat) ^ 318 < 2 ^ 800 :=
      (Nat.pow_lt_pow_iff_right (by norm_num)).mpr (by norm_num)
    omega
  obtain ⟨hz52, hzd, hzd252, hzv1, hzv2, hzn⟩ :=
    roundPos_bounds (x.n * y.d) (x.d * y.n) hn1pos hd1pos hval hn1size
  set z := roundPos (x.n * y.d) (x.d * y.n) with hzdef
  clear_value z
  -- bounds for the 10 * z arguments
  have hn2pos : 1 ≤ MinimumBindings * z.n := by
    rw [MinimumBindings]
    have : (1 : Nat) ≤ z.n := by omega
    omega
  have hval2 : z.d ≤ MinimumBindings * z.n * 2 ^ 200 := by
    have h1 : z.d ≤ 2 ^ 252 := hzd252
    have h2 : (2:Nat) ^ 252 = 2 ^ 52 * 2 ^ 200 := by
      rw [← Nat.pow_add]
    have h3 : 2 ^ 52 * 2 ^ 200 ≤ z.n * 2 ^ 200 :=
      Nat.mul_le_mul_right _ hz52
    have h4 : z.n * 2 ^ 200 ≤ MinimumBindings * z.n * 2 ^ 200 := by
      rw [MinimumBindings]
      have := Nat.mul_le_mul_right (2 ^ 200)
        (Nat.le_mul_of_pos_left z.n (by norm_num : 0 < 10))
      omega
    omega
  have hzn322 : z.n < 2 ^ 322 := by
    have h1 : z.n ≤ 2 * (x.n * y.d) + 2 ^ 53 := hzn
    have h2f : x.n ≤ 2 ^ 66 - 1 := by omega
    have h2g : x.n * y.d ≤ (2 ^ 66 - 1) * 2 ^ 252 :=
      Nat.mul_le_mul h2f hyd252
    have h2h : ((2:Nat) ^ 66 - 1) * 2 ^ 252 < 2 ^ 66 * 2 ^ 252 := by
      have hp : (0:Nat) < 2 ^ 252 := by positivity
      have h2i : ((2:Nat) ^ 66 - 1) < 2 ^ 66 := by
        have : (0:Nat) < 2 ^ 66 := by positivity
        omega
      exact (Nat.mul_lt_mul_right hp).mpr h2i
    have h2j : (2:Nat) ^ 66 * 2 ^ 252 = 2 ^ 318 := hpoweq 66 252 318 (by norm_num)
    have h3 : (2:Nat) * 2 ^ 318 = 2 ^ 319 := by
      have := hpoweq 1 318 319 (by norm_num)
      omega
    have h4 : (2:Nat) ^ 53 ≤ 2 ^ 319 := hpow 53 319 (by norm_num)
    have h5 : (2:Nat) ^ 319 + 2 ^ 319 = 2 ^ 320 := by
      have := hpoweq 1 319 320 (by norm_num)
      omega
    have h6 : (2:Nat) ^ 320 < 2 ^ 322 :=
      (Nat.pow_lt_pow_iff_right (by norm_num)).mpr (by norm_num)
    omega
  have hn2size : MinimumBindings * z.n < 2 ^ 800 := by
    rw [MinimumBindings]
    have h1 : 10 * z.n < 10 * 2 ^ 322 := by omega
    have h2 : (10:Nat) * 2 ^ 322 ≤ 2 ^ 4 * 2 ^ 322 := by
      have : (10:Nat) ≤ 2 ^ 4 := by norm_num
      exact Nat.mul_le_mul_right _ this
    have h3 : (2:Nat) ^ 4 * 2 ^ 322 = 2 ^ 326 := hpoweq 4 322 326 (by norm_num)
    have h4 : (2:Nat) ^ 326 < 2 ^ 800 :=
      (Nat.pow_lt_pow_iff_right (by norm_num)).mpr (by norm_num)
    omega
  obtain ⟨hu52, hud, -, -, -, -⟩ :=
    roundPos_bounds (MinimumBindings * z.n) z.d hn2pos (by omega) hval2 hn2size
  set u := roundPos (MinimumBindings * z.n) z.d with hudef
  clear_value u
  rw [fceil]
  have hun : 1 ≤ u.n := le_trans Nat.one_le_two_pow hu52
  exact (Nat.one_le_div_iff (by omega)).mpr (by omega)

/-- The stored quota of the lightest queue itself is exactly 10 (10 fits
in `int64`, so the conversion is the identity). -/
theorem maximumBindingsOf_self (w : Nat) (hw1 : 1 ≤ w) (hw2 : w < 2 ^ 64) :
    maximumBindingsOf w w = 10 := by
  rw [maximumBindingsOf, maximumBindingsCeil_self w hw1 hw2, intOfFloat,
    if_pos (by norm_num)]
  norm_num

/-- In the exactly representable regime the stored quota is the exact
ceiling `10 * w / m`. -/
theorem maximumBindingsOf_exact (w m : Nat) (hm1 : 1 ≤ m) (hmw : m ≤ w)
    (hw53 : w < 2 ^ 53) (hdvd : m ∣ w) (h10 : 10 * (w / m) < 2 ^ 53) :
    maximumBindingsOf w m = ((10 * (w / m) : Nat) : Int) := by
  have hrange : 10 * (w / m) < 2 ^ 63 :=
    lt_trans h10 ((Nat.pow_lt_pow_iff_right (by norm_num)).mpr (by norm_num))
  rw [maximumBindingsOf, maximumBindingsCeil_exact w m hm1 hmw hw53 hdvd h10,
    intOfFloat, if_pos hrange]

/-- When the `math.Ceil` value does not fit in `int64`, the stored quota
is the out-of-range conversion result `-2^63` (gc/amd64). -/
theorem maximumBindingsOf_out_of_range (w m : Nat)
    (h : 2 ^ 63 ≤ maximumBindingsCeil w m) :
    maximumBindingsOf w m = -(2 ^ 63) := by
  rw [maximumBindingsOf, intOfFloat, if_neg (by omega)]

/-! ### Reader construction -/

/-- The `QueueConfig` consumed by `NewRoundRobinReader` (`pkg/queue`,
the variant with `Name`, `Weight uint` and a queue reference; the queue
is its heap state). -/
structure RRQueueConfig where
  name : String
  weight : Nat
  queue : List PlacementRequest
deriving DecidableEq, Repr

instance : Inhabited RRQueueConfig :=
  ⟨{ name := "", weight := 0, queue := [] }⟩

/-- The `slices.MinFunc` comparator
`int(a.Weight) - int(b.Weight)` with `int64` wrap-around. -/
def cmpWeight (a b : Nat) : Int :=
  wrap64 (toInt64 a - toInt64 b)

/-- `slices.MinFunc`: first element minimal under the comparator;
`none` models the panic on an empty slice. -/
def minFuncWeight (cfgs : List RRQueueConfig) : Option RRQueueConfig :=
  match cfgs with
  | [] => none
  | c :: rest =>
    some (rest.foldl (fun m x => if cmpWeight x.weight m.weight < 0 then x else m) c)

/-- One entry of the `RoundRobinReader` state
(`ExtendedQueueConfig`). -/
structure ExtendedQueueConfig where
  name : String
  weight : Nat
  queue : List PlacementRequest
  maximumBindings : Int
  bindingsRead : Int
deriving DecidableEq, Repr

instance : Inhabited ExtendedQueueConfig :=
  ⟨{ name := "", weight := 0, queue := [], maximumBindings := 0, bindingsRead := 0 }⟩

/-- `NewRoundRobinReader`: `none` models the two panics (empty slice in
`slices.MinFunc`, zero lightest weight); otherwise every config is
extended with its quota and a zero counter. -/
def NewRoundRobinReader (cfgs : List RRQueueConfig) :
    Option (List ExtendedQueueConfig) :=
  match minFuncWeight cfgs with
  | none => none
  | some lighter =>
    if lighter.weight = 0 then none
    else some (cfgs.map fun c =>
      { name := c.name, weight := c.weight, queue := c.queue,
        maximumBindings := maximumBindingsOf c.weight lighter.weight,
        bindingsRead := 0 })

/-! ### `RoundRobinReader.Read` -/

/-- `RoundRobinReader.empty`: true when all queues are empty. -/
def rrEmpty (cfgs : List ExtendedQueueConfig) : Bool :=
  cfgs.all fun c => c.queue.length = 0

/-- `RoundRobinReader.next`: the first index whose counter is below its
quota, `none` for the `-1` return. -/
def rrNext (cfgs : List ExtendedQueueConfig) : Option Nat :=
  cfgs.findIdx? fun c => c.bindingsRead < c.maximumBindings

/-- `RoundRobinReader.reset`. -/
def rrReset (cfgs : List ExtendedQueueConfig) : List ExtendedQueueConfig :=
  cfgs.map fun c => { c with bindingsRead := 0 }

/-- Index selection including the one reset retry: `none` models falling
through to the `panic` (`round-robin.go` lines 44-48). -/
def rrSelect (cfgs : List ExtendedQueueConfig) :
    Option (Nat × List ExtendedQueueConfig) :=
  match rrNext cfgs with
  | some i => some (i, cfgs)
  | none =>
    match rrNext (rrReset cfgs) with
    | some i => some (i, rrReset cfgs)
    | none => none

/-- Result of a `Read` call. -/
inductive RRReadResult where
  /-- A request was popped from queue `i`; `s` is the updated state. -/
  | found (pr : PlacementRequest) (i : Nat) (s : List ExtendedQueueConfig)
  /-- All queues were empty: the `nil` return. -/
  | noneLeft
  /-- The `panic("no queues to read from but not all are empty")`. -/
  | panicked
  /-- Artificial fuel exhaustion of the model (never reached with fuel
  above the config count). -/
  | outOfFuel
deriving DecidableEq, Repr

/-- `RoundRobinReader.Read`.  The recursion of the source is bounded by
explicit fuel so that the model stays structurally recursive. -/
def rrRead : Nat → List ExtendedQueueConfig → RRReadResult
  | 0, _ => .outOfFuel
  | fuel + 1, cfgs =>
    if rrEmpty cfgs then .noneLeft
    else
      match rrSelect cfgs with
      | none => .panicked
      | some (i, s) =>
        let c := s.getD i default
        match queuePop c.queue with
        | some (pr, q') =>
          .found pr i (s.set i { c with
            queue := q',
            bindingsRead := c.bindingsRead + (pr.spec.bindings.length : Int) })
        | none =>
          rrRead fuel (s.set i { c with bindingsRead := c.maximumBindings })

/-! ### Structural facts about `Pop` (no heap invariant needed) -/

/-- `heapDown` permutes its input and leaves indices from `n` on
untouched, with no ordering assumption. -/
theorem heapDown_perm (m : Nat) : ∀ (l : List PlacementRequest) (i n : Nat),
    n - i ≤ m → n ≤ l.length →
    (heapDown l i n).Perm l ∧ ∀ k, n ≤ k → prAt (heapDown l i n) k = prAt l k := by
  induction m with
  | zero =>
    intro l i n hm hn
    have hstop : ¬2 * i + 1 < n := by omega
    rw [heapDown, dif_neg hstop]
    exact ⟨List.Perm.refl l, fun k _ => rfl⟩
  | succ m ih =>
    intro l i n hm hn
    by_cases h1 : 2 * i + 1 < n
    · by_cases hlt : Priority (prAt l (minChild l i n)) < Priority (prAt l i)
      · have hstep : heapDown l i n =
            heapDown (swapAt l i (minChild l i n)) (minChild l i n) n := by
          rw [heapDown, dif_pos h1, if_pos hlt]
        set j := minChild l i n with hjdef
        obtain ⟨hij, hjn⟩ := minChild_bounds l i n h1
        have hil : i < l.length := by omega
        have hjl : j < l.length := by omega
        have hperm : (swapAt l i j).Perm l := swapAt_perm l i j hil hjl
        have hlen' : n ≤ (swapAt l i j).length := by
          rw [length_swapAt]; exact hn
        have hres := ih (swapAt l i j) j n (by omega) hlen'
        rw [hstep]
        refine ⟨hres.1.trans hperm, fun k hk => ?_⟩
        rw [hres.2 k hk, prAt_swapAt_other l i j k (by omega) (by omega)]
      · rw [heapDown, dif_pos h1, if_neg hlt]
        exact ⟨List.Perm.refl l, fun k _ => rfl⟩
    · rw [heapDown, dif_neg h1]
      exact ⟨List.Perm.refl l, fun k _ => rfl⟩

/-- A successful `Pop` returns a member of the queue; the remainder plus
the popped request permutes the old queue. -/
theorem queuePop_shape {q : List PlacementRequest} {x : PlacementRequest}
    {q' : List PlacementRequest} (h : queuePop q = some (x, q')) :
    x ∈ q ∧ (q' ++ [x]).Perm q ∧ q'.length = q.length - 1 := by
  have h0 : ¬q.length = 0 := by
    intro h0
    rw [queuePop, if_pos h0] at h
    cases h
  set n := q.length - 1 with hndef
  set l1 := swapAt q 0 n with hl1def
  have hlen1 : l1.length = q.length := length_swapAt q 0 n
  have hd := heapDown_perm n l1 0 n (by omega) (by omega)
  set l2 := heapDown l1 0 n with hl2def
  have hlen2 : l2.length = q.length := by
    rw [hd.1.length_eq, hlen1]
  have hpop : queuePop q = some (prAt l2 n, l2.take n) := by
    rw [queuePop, if_neg h0]
  rw [hpop] at h
  simp only [Option.some.injEq, Prod.mk.injEq] at h
  obtain ⟨hx, hq'⟩ := h
  have hnlt : n < l2.length := by omega
  have happ : l2.take n ++ [prAt l2 n] = l2 := by
    rw [prAt_eq_getElem l2 n hnlt, ← List.concat_eq_append,
      List.take_concat_get l2 n hnlt]
    exact List.take_of_length_le (by omega)
  have hperm : (q' ++ [x]).Perm q := by
    rw [← hx, ← hq', happ]
    exact hd.1.trans (swapAt_perm q 0 n (by omega) (by omega))
  refine ⟨?_, hperm, ?_⟩
  · exact hperm.mem_iff.mp (List.mem_append_right _ (List.mem_singleton_self x))
  · rw [← hq', List.length_take]
    omega

/-! ### Reader-state bookkeeping -/

theorem findIdx?_getD_aux {α : Type} [Inhabited α] (p : α → Bool) :
    ∀ (l : List α) (s i : Nat), List.findIdx? p l s = some i →
      s ≤ i ∧ i - s < l.length ∧ p (l.getD (i - s) default) = true := by
  intro l
  induction l with
  | nil => intro s i h; cases h
  | cons x xs ih =>
    intro s i h
    rw [List.findIdx?_cons] at h
    by_cases hp : p x = true
    · rw [if_pos hp] at h
      injection h with h
      subst h
      exact ⟨le_refl _, by simp, by simpa using hp⟩
    · rw [if_neg hp] at h
      obtain ⟨hs, hlt, hp2⟩ := ih (s + 1) i h
      refine ⟨by omega, by simp only [List.length_cons]; omega, ?_⟩
      have hsplit : i - s = (i - (s + 1)) + 1 := by omega
      rw [hsplit]
      simpa using hp2

theorem findIdx?_getD {α : Type} [Inhabited α] (p : α → Bool)
    (l : List α) (i : Nat) (h : l.findIdx? p = some i) :
    i < l.length ∧ p (l.getD i default) = true := by
  obtain ⟨-, h1, h2⟩ := findIdx?_getD_aux p l 0 i h
  rw [Nat.sub_zero] at h1 h2
  exact ⟨h1, h2⟩

theorem ecfgAt_eq_getElem (l : List ExtendedQueueConfig) (i : Nat)
    (h : i < l.length) : l.getD i default = l[i] := by
  simp [List.getD_eq_getElem?_getD, List.getElem?_eq_getElem h]

theorem ecfgAt_set (l : List ExtendedQueueConfig) (i : Nat)
    (x : ExtendedQueueConfig) (h : i < l.length) :
    (l.set i x).getD i default = x := by
  rw [ecfgAt_eq_getElem _ i (by rw [List.length_set]; exact h)]
  simp [List.getElem_set]

/-- The index returned by `next` is in range and its counter is strictly
below its quota. -/
theorem rrNext_spec {cfgs : List ExtendedQueueConfig} {i : Nat}
    (h : rrNext cfgs = some i) :
    i < cfgs.length
    ∧ (cfgs.getD i default).bindingsRead
        < (cfgs.getD i default).maximumBindings := by
  obtain ⟨h1, h2⟩ := findIdx?_getD _ cfgs i h
  exact ⟨h1, by simpa using h2⟩

/-- `rrSelect` reads from the current or the reset state, and the chosen
index passes the quota test in that state. -/
theorem rrSelect_spec {cfgs s : List ExtendedQueueConfig} {i : Nat}
    (h : rrSelect cfgs = some (i, s)) :
    (s = cfgs ∨ s = rrReset cfgs) ∧ rrNext s = some i := by
  rw [rrSelect] at h
  cases hn : rrNext cfgs with
  | some k =>
    rw [hn] at h
    injection h with h
    obtain ⟨h1, h2⟩ := Prod.mk.injEq .. ▸ h
    exact ⟨Or.inl h2.symm, h2 ▸ h1 ▸ hn⟩
  | none =>
    rw [hn] at h
    cases hn2 : rrNext (rrReset cfgs) with
    | some k =>
      rw [hn2] at h
      injection h with h
      obtain ⟨h1, h2⟩ := Prod.mk.injEq .. ▸ h
      exact ⟨Or.inr h2.symm, h2 ▸ h1 ▸ hn2⟩
    | none =>
      rw [hn2] at h
      cases h

theorem mem_rrReset {x : ExtendedQueueConfig} {cfgs : List ExtendedQueueConfig}
    (h : x ∈ rrReset cfgs) : ∃ c ∈ cfgs, x = { c with bindingsRead := 0 } := by
  rw [rrReset] at h
  obtain ⟨c, hc, hcx⟩ := List.mem_map.mp h
  exact ⟨c, hc, hcx.symm⟩

theorem ecfgAt_set_ne (l : List ExtendedQueueConfig) (i k : Nat)
    (x : ExtendedQueueConfig) (hik : i ≠ k) :
    (l.set i x).getD k default = l.getD k default := by
  simp only [List.getD_eq_getElem?_getD, List.getElem?_set]
  simp [hik]

theorem rrReset_length (cfgs : List ExtendedQueueConfig) :
    (rrReset cfgs).length = cfgs.length := by
  rw [rrReset, List.length_map]

theorem rrReset_getD (cfgs : List ExtendedQueueConfig) (k : Nat)
    (hk : k < cfgs.length) :
    (rrReset cfgs).getD k default
      = { cfgs.getD k default with bindingsRead := 0 } := by
  have he : cfgs.getD k default = cfgs[k] := ecfgAt_eq_getElem cfgs k hk
  rw [rrReset, ecfgAt_eq_getElem _ k (by rw [List.length_map]; exact hk),
    List.getElem_map, he]

/-- If some entry has a positive quota, `rrSelect` never falls through
to the panic: after a reset that entry's counter is zero and it passes
the quota test. -/
theorem rrSelect_not_none {cfgs : List ExtendedQueueConfig} {k : Nat}
    (hk : k < cfgs.length)
    (hq : 1 ≤ (cfgs.getD k default).maximumBindings) :
    rrSelect cfgs ≠ none := by
  intro h
  rw [rrSelect] at h
  cases hn : rrNext cfgs with
  | some j => rw [hn] at h; cases h
  | none =>
    rw [hn] at h
    cases hn2 : rrNext (rrReset cfgs) with
    | some j => rw [hn2] at h; cases h
    | none =>
      rw [rrNext, List.findIdx?_eq_none_iff] at hn2
      have hmem : (rrReset cfgs).getD k default ∈ rrReset cfgs := by
        rw [ecfgAt_eq_getElem _ k (by rw [rrReset_length]; exact hk)]
        exact List.getElem_mem _
      have hfalse := hn2 _ hmem
      rw [rrReset_getD cfgs k hk] at hfalse
      simp only [decide_eq_false_iff_not, not_lt] at hfalse
      have hle : (cfgs.getD k default).maximumBindings ≤ (0 : Int) := hfalse
      omega

/-- If some entry's quota is positive, `Read` never reaches the
`"no queues to read from but not all are empty"` panic: no update ever
changes an entry's quota, and after a reset the positive-quota entry is
readable again. -/
theorem rrRead_no_panic (fuel : Nat) : ∀ cfgs : List ExtendedQueueConfig,
    (∃ k, k < cfgs.length ∧ 1 ≤ (cfgs.getD k default).maximumBindings) →
    rrRead fuel cfgs ≠ .panicked := by
  induction fuel with
  | zero =>
    intro cfgs _ h
    rw [rrRead] at h
    cases h
  | succ fuel ih =>
    intro cfgs hq h
    obtain ⟨k, hk, hkq⟩ := hq
    rw [rrRead] at h
    by_cases he : rrEmpty cfgs
    · rw [if_pos he] at h; cases h
    · rw [if_neg he] at h
      cases hsel : rrSelect cfgs with
      | none => exact rrSelect_not_none hk hkq hsel
      | some p =>
        obtain ⟨i, s⟩ := p
        simp only [hsel] at h
        have hspec := rrSelect_spec hsel
        have hks : k < s.length ∧ 1 ≤ (s.getD k default).maximumBindings := by
          rcases hspec.1 with rfl | rfl
          · exact ⟨hk, hkq⟩
          · refine ⟨by rw [rrReset_length]; exact hk, ?_⟩
            rw [rrReset_getD cfgs k hk]
            exact hkq
        cases hpop : queuePop (s.getD i default).queue with
        | some pq =>
          obtain ⟨pr, q2⟩ := pq
          simp only [hpop] at h
          cases h
        | none =>
          simp only [hpop] at h
          refine ih _ ⟨k, ?_, ?_⟩ h
          · rw [List.length_set]
            exact hks.1
          · by_cases hki : k = i
            · subst hki
              rw [ecfgAt_set s k _ hks.1]
              exact hks.2
            · rw [ecfgAt_set_ne s i k _ (Ne.symm hki)]
              exact hks.2

/-- Membership of the `slices.MinFunc` result. -/
theorem minFuncWeight_mem : ∀ (cfgs : List RRQueueConfig) (c : RRQueueConfig),
    minFuncWeight cfgs = some c → c ∈ cfgs := by
  have haux : ∀ (l : List RRQueueConfig) (acc : RRQueueConfig)
      (S : List RRQueueConfig), acc ∈ S → (∀ y ∈ l, y ∈ S) →
      l.foldl (fun m x => if cmpWeight x.weight m.weight < 0 then x else m) acc ∈ S := by
    intro l
    induction l with
    | nil =>
      intro acc S hacc _
      simpa using hacc
    | cons y ys ih =>
      intro acc S hacc hl
      rw [List.foldl_cons]
      refine ih _ S ?_ (fun z hz => hl z (List.mem_cons_of_mem _ hz))
      by_cases hc : cmpWeight y.weight acc.weight < 0
      · rw [if_pos hc]
        exact hl y (List.mem_cons_self _ _)
      · rw [if_neg hc]
        exact hacc
  intro cfgs c h
  match cfgs with
  | [] => cases h
  | x :: rest =>
    rw [minFuncWeight] at h
    injection h with h
    rw [← h]
    exact haux rest x (x :: rest) (List.mem_cons_self _ _)
      (fun y hy => List.mem_cons_of_mem _ hy)

theorem rrcfg_getD_eq_getElem (l : List RRQueueConfig) (k : Nat)
    (hk : k < l.length) : l.getD k default = l[k] := by
  simp [List.getD_eq_getElem?_getD, List.getElem?_eq_getElem hk]

theorem getD_map_ecfg (f : RRQueueConfig → ExtendedQueueConfig)
    (l : List RRQueueConfig) (k : Nat) (hk : k < l.length) :
    (l.map f).getD k default = f (l.getD k default) := by
  rw [ecfgAt_eq_getElem _ k (by rw [List.length_map]; exact hk),
    List.getElem_map]
  congr 1
  simp [List.getD_eq_getElem?_getD, List.getElem?_eq_getElem hk]

/-! ## C9: the second-failure panic is unreachable -/

set_option maxRecDepth 100000 in
/-- C9 counterexample: the claim's premise that every quota is at least
`MinimumBindings` fails: with weights 1 and `2^62` the heavy queue's
`math.Ceil` value `10 * 2^62` does not fit in `int64`, so the stored
`int` quota is the out-of-range conversion result `-2^63`, far below
10. -/
theorem roundRobin_quota_not_positive :
    (NewRoundRobinReader
        [{ name := "a", weight := 1, queue := [] },
         { name := "b", weight := 2 ^ 62, queue := [] }]).map
        (fun st => (st.getD 1 default).maximumBindings)
      = some (-(2 ^ 63))
    ∧ ¬(MinimumBindings : Int) ≤ -(2 ^ 63) := by
  constructor
  · decide
  · decide

/-- C9 (amended): for configs with weights in the `uint` range and all
at least 1, `NewRoundRobinReader` succeeds and the entry built from the
`slices.MinFunc` result has quota exactly 10 (its weight ratio is
exactly 1.0, and 10 fits in `int64`), so after a counter reset the scan
always finds a readable index and `Read` never executes the
`panic("no queues to read from but not all are empty")` — even though
quotas of far heavier queues can be negative after the `int`
conversion. -/
theorem roundRobin_no_second_failure (cfgs : List RRQueueConfig)
    (hne : cfgs ≠ [])
    (hw : ∀ c ∈ cfgs, 1 ≤ c.weight ∧ c.weight < 2 ^ 64) :
    ∃ st, NewRoundRobinReader cfgs = some st
      ∧ (∃ k, k < st.length ∧ (st.getD k default).maximumBindings = 10)
      ∧ ∀ fuel, rrRead fuel st ≠ .panicked := by
  obtain ⟨lighter, hlit⟩ : ∃ lighter, minFuncWeight cfgs = some lighter := by
    obtain ⟨c0, rest, rfl⟩ := List.exists_cons_of_ne_nil hne
    rw [minFuncWeight]
    exact ⟨_, rfl⟩
  have hlmem : lighter ∈ cfgs := minFuncWeight_mem cfgs lighter hlit
  have hlw := hw lighter hlmem
  have hlnz : ¬lighter.weight = 0 := by omega
  obtain ⟨k, hk, hkl⟩ := List.mem_iff_getElem.mp hlmem
  have hgd : cfgs.getD k default = lighter := by
    rw [rrcfg_getD_eq_getElem cfgs k hk, hkl]
  refine ⟨cfgs.map fun c =>
      { name := c.name, weight := c.weight, queue := c.queue,
        maximumBindings := maximumBindingsOf c.weight lighter.weight,
        bindingsRead := 0 }, ?_, ?_, ?_⟩
  · simp only [NewRoundRobinReader, hlit]
    rw [if_neg hlnz]
  · refine ⟨k, by rw [List.length_map]; exact hk, ?_⟩
    rw [getD_map_ecfg _ cfgs k hk, hgd]
    exact maximumBindingsOf_self lighter.weight hlw.1 hlw.2
  · intro fuel
    apply rrRead_no_panic
    refine ⟨k, by rw [List.length_map]; exact hk, ?_⟩
    rw [getD_map_ecfg _ cfgs k hk, hgd,
      maximumBindingsOf_self lighter.weight hlw.1 hlw.2]
    norm_num

/-- Witness for C9: a concrete two-queue reader with weights 1 and 3 is
built successfully, has an entry with quota exactly 10, and can never
panic, at any recursion depth. -/
theorem roundRobin_no_second_failure_witness :
    ∃ st, NewRoundRobinReader
        [{ name := "a", weight := 1, queue := [] },
         { name := "b", weight := 3, queue := [prWithTs 5] }] = some st
      ∧ (∃ k, k < st.length ∧ (st.getD k default).maximumBindings = 10)
      ∧ ∀ fuel, rrRead fuel st ≠ .panicked :=
  roundRobin_no_second_failure
    [{ name := "a", weight := 1, queue := [] },
     { name := "b", weight := 3, queue := [prWithTs 5] }]
    (by simp) (by decide)

/-! ## C10: the per-queue quota is a soft bound -/

/-- Any `found` result of `Read` arises from a state entry that passed
the quota test (`BindingsRead < MaximumBindings`) before popping, and
whose counter is then incremented by the full binding count of the
popped request, itself an element of that entry's queue. -/
theorem rrRead_found_step (fuel : Nat) : ∀ (cfgs : List ExtendedQueueConfig)
    (pr : PlacementRequest) (i : Nat) (s : List ExtendedQueueConfig),
    rrRead fuel cfgs = .found pr i s →
    ∃ c : ExtendedQueueConfig,
      c.bindingsRead < c.maximumBindings
      ∧ (s.getD i default).maximumBindings = c.maximumBindings
      ∧ (s.getD i default).bindingsRead
          = c.bindingsRead + (pr.spec.bindings.length : Int)
      ∧ pr ∈ c.queue := by
  induction fuel with
  | zero =>
    intro cfgs pr i s h
    rw [rrRead] at h
    cases h
  | succ fuel ih =>
    intro cfgs pr i s h
    rw [rrRead] at h
    by_cases he : rrEmpty cfgs
    · rw [if_pos he] at h; cases h
    · rw [if_neg he] at h
      cases hsel : rrSelect cfgs with
      | none =>
        rw [hsel] at h
        cases h
      | some p =>
        obtain ⟨j, st⟩ := p
        simp only [hsel] at h
        have hspec := rrSelect_spec hsel
        have hnext := rrNext_spec hspec.2
        cases hpop : queuePop (st.getD j default).queue with
        | none =>
          simp only [hpop] at h
          exact ih _ pr i s h
        | some pq =>
          obtain ⟨pr2, q2⟩ := pq
          simp only [hpop] at h
          rw [RRReadResult.found.injEq] at h
          obtain ⟨h1, h2, h3⟩ := h
          subst h1
          subst h2
          subst h3
          refine ⟨st.getD j default, hnext.2, ?_, ?_, (queuePop_shape hpop).1⟩
          · rw [ecfgAt_set st j _ hnext.1]
          · rw [ecfgAt_set st j _ hnext.1]

/-- If every request held in the queues carries at most `L` bindings and
every counter satisfies `BindingsRead ≤ MaximumBindings - 1 + L`, then
after any `found` result of `Read` all counters still satisfy that
bound. -/
theorem rrRead_found_invariant (fuel : Nat) (L : Nat) (hL : 1 ≤ L) :
    ∀ (cfgs : List ExtendedQueueConfig) (pr : PlacementRequest) (i : Nat)
      (s : List ExtendedQueueConfig),
    (∀ c ∈ cfgs, 0 ≤ c.maximumBindings) →
    (∀ c ∈ cfgs, ∀ r ∈ c.queue, r.spec.bindings.length ≤ L) →
    (∀ c ∈ cfgs, c.bindingsRead + 1 ≤ c.maximumBindings + (L : Int)) →
    rrRead fuel cfgs = .found pr i s →
    ∀ c ∈ s, c.bindingsRead + 1 ≤ c.maximumBindings + (L : Int) := by
  induction fuel with
  | zero =>
    intro cfgs pr i s _ _ _ h
    rw [rrRead] at h
    cases h
  | succ fuel ih =>
    intro cfgs pr i s hnn hlen hinv h
    rw [rrRead] at h
    by_cases he : rrEmpty cfgs
    · rw [if_pos he] at h; cases h
    · rw [if_neg he] at h
      cases hsel : rrSelect cfgs with
      | none =>
        rw [hsel] at h
        cases h
      | some p =>
        obtain ⟨j, st⟩ := p
        simp only [hsel] at h
        have hspec := rrSelect_spec hsel
        have hnext := rrNext_spec hspec.2
        have hstnn : ∀ c ∈ st, 0 ≤ c.maximumBindings := by
          rcases hspec.1 with rfl | rfl
          · exact hnn
          · intro x hx
            obtain ⟨c, hc, rfl⟩ := mem_rrReset hx
            exact hnn c hc
        have hstlen : ∀ c ∈ st, ∀ r ∈ c.queue, r.spec.bindings.length ≤ L := by
          rcases hspec.1 with rfl | rfl
          · exact hlen
          · intro x hx r hr
            obtain ⟨c, hc, rfl⟩ := mem_rrReset hx
            exact hlen c hc r hr
        have hstinv : ∀ c ∈ st, c.bindingsRead + 1 ≤ c.maximumBindings + (L : Int) := by
          rcases hspec.1 with rfl | rfl
          · exact hinv
          · intro x hx
            obtain ⟨c, hc, rfl⟩ := mem_rrReset hx
            have hcnn : (0 : Int) ≤ c.maximumBindings := hnn c hc
            show (0 : Int) + 1 ≤ c.maximumBindings + (L : Int)
            omega
        have hcmem : st.getD j default ∈ st := by
          rw [ecfgAt_eq_getElem st j hnext.1]
          exact List.getElem_mem hnext.1
        cases hpop : queuePop (st.getD j default).queue with
        | none =>
          simp only [hpop] at h
          refine ih _ pr i s ?_ ?_ ?_ h
          · intro x hx
            rcases List.mem_or_eq_of_mem_set hx with hx' | rfl
            · exact hstnn x hx'
            · exact hstnn (st.getD j default) hcmem
          · intro x hx r hr
            rcases List.mem_or_eq_of_mem_set hx with hx' | rfl
            · exact hstlen x hx' r hr
            · exact hstlen (st.getD j default) hcmem r hr
          · intro x hx
            rcases List.mem_or_eq_of_mem_set hx with hx' | rfl
            · exact hstinv x hx'
            · show (st.getD j default).maximumBindings + 1
                ≤ (st.getD j default).maximumBindings + (L : Int)
              omega
        | some pq =>
          obtain ⟨pr2, q2⟩ := pq
          simp only [hpop] at h
          rw [RRReadResult.found.injEq] at h
          obtain ⟨h1, h2, h3⟩ := h
          rw [← h3]
          intro x hx
          rcases List.mem_or_eq_of_mem_set hx with hx' | rfl
          · exact hstinv x hx'
          · have hprlen : pr2.spec.bindings.length ≤ L :=
              hstlen (st.getD j default) hcmem pr2 (queuePop_shape hpop).1
            have hcq := hnext.2
            show (st.getD j default).bindingsRead
                + (pr2.spec.bindings.length : Int) + 1
              ≤ (st.getD j default).maximumBindings + (L : Int)
            omega

/-- C10: the quota is a soft bound.  First part: every `found` result of
`Read` comes from an entry whose counter was strictly below its quota
before popping and is then incremented by the popped request's full
binding count, so the new counter can exceed the quota by up to that
binding count minus one.  Second part: if all queued requests carry at
most `L ≥ 1` bindings, the bound
`BindingsRead ≤ MaximumBindings - 1 + L` is an invariant of `Read`. -/
theorem rrRead_soft_quota :
    (∀ (fuel : Nat) (cfgs : List ExtendedQueueConfig)
        (pr : PlacementRequest) (i : Nat) (s : List ExtendedQueueConfig),
      rrRead fuel cfgs = .found pr i s →
      ∃ c : ExtendedQueueConfig,
        c.bindingsRead < c.maximumBindings
        ∧ (s.getD i default).maximumBindings = c.maximumBindings
        ∧ (s.getD i default).bindingsRead
            = c.bindingsRead + (pr.spec.bindings.length : Int)
        ∧ (s.getD i default).bindingsRead + 1
            ≤ c.maximumBindings + (pr.spec.bindings.length : Int)
        ∧ pr ∈ c.queue)
    ∧ (∀ L : Nat, 1 ≤ L →
        ∀ (fuel : Nat) (cfgs : List ExtendedQueueConfig)
          (pr : PlacementRequest) (i : Nat) (s : List ExtendedQueueConfig),
        (∀ c ∈ cfgs, 0 ≤ c.maximumBindings) →
        (∀ c ∈ cfgs, ∀ r ∈ c.queue, r.spec.bindings.length ≤ L) →
        (∀ c ∈ cfgs, c.bindingsRead + 1 ≤ c.maximumBindings + (L : Int)) →
        rrRead fuel cfgs = .found pr i s →
        ∀ c ∈ s, c.bindingsRead + 1 ≤ c.maximumBindings + (L : Int)) := by
  refine ⟨?_, ?_⟩
  · intro fuel cfgs pr i s h
    obtain ⟨c, h1, h2, h3, h4⟩ := rrRead_found_step fuel cfgs pr i s h
    exact ⟨c, h1, h2, h3, by omega, h4⟩
  · intro L hL fuel cfgs pr i s hnn hlen hinv h
    exact rrRead_found_invariant fuel L hL cfgs pr i s hnn hlen hinv h

/-- A request carrying three bindings, used to exercise the soft quota. -/
def prThreeBindings : PlacementRequest :=
  { (default : PlacementRequest) with spec :=
      { policy := .lenient, priority := 0, schedulerName := "s",
        bindings :=
          [{ podName := "p1", podUID := "u1", nodeName := "n1" },
           { podName := "p2", podUID := "u2", nodeName := "n2" },
           { podName := "p3", podUID := "u3", nodeName := "n3" }] } }

/-- A one-queue reader state with quota 1 holding `prThreeBindings`. -/
def softQuotaCfg : ExtendedQueueConfig :=
  { name := "a", weight := 1, queue := [prThreeBindings],
    maximumBindings := 1, bindingsRead := 0 }

/-- Witness for C10: on a queue with quota 1 holding a three-binding
request, `Read` pops the request and leaves the counter at 3, exceeding
the quota by two; the invariant bound with `L = 3` holds for the
resulting state. -/
theorem rrRead_soft_quota_witness :
    rrRead 1 [softQuotaCfg]
      = .found prThreeBindings 0 [{ softQuotaCfg with
          queue := [], bindingsRead := 3 }]
    ∧ (∃ c : ExtendedQueueConfig,
        c.bindingsRead < c.maximumBindings
        ∧ (([{ softQuotaCfg with queue := [], bindingsRead := 3 }]
              : List ExtendedQueueConfig).getD 0 default).maximumBindings
            = c.maximumBindings
        ∧ (([{ softQuotaCfg with queue := [], bindingsRead := 3 }]
              : List ExtendedQueueConfig).getD 0 default).bindingsRead
            = c.bindingsRead + (prThreeBindings.spec.bindings.length : Int)
        ∧ (([{ softQuotaCfg with queue := [], bindingsRead := 3 }]
              : List ExtendedQueueConfig).getD 0 default).bindingsRead + 1
            ≤ c.maximumBindings + (prThreeBindings.spec.bindings.length : Int)
        ∧ prThreeBindings ∈ c.queue)
    ∧ ({ softQuotaCfg with queue := [], bindingsRead := 3
          } : ExtendedQueueConfig).maximumBindings
        < ({ softQuotaCfg with queue := [], bindingsRead := 3
          } : ExtendedQueueConfig).bindingsRead := by
  have heval : rrRead 1 [softQuotaCfg]
      = .found prThreeBindings 0 [{ softQuotaCfg with
          queue := [], bindingsRead := 3 }] := by
    simp [rrRead, rrEmpty, rrSelect, rrNext, softQuotaCfg, prThreeBindings,
      queuePop, heapDown, swapAt, prAt, List.findIdx?_cons]
  refine ⟨heval, ?_, by decide⟩
  exact rrRead_soft_quota.1 1 [softQuotaCfg] prThreeBindings 0
    [{ softQuotaCfg with queue := [], bindingsRead := 3 }] heval

/-! ## C6: the construction-time quotas -/

/-- For weights below `2^63` the `int(a.Weight) - int(b.Weight)`
comparator computes the exact difference: no wrap-around occurs. -/
theorem cmpWeight_exact (a b : Nat) (ha : a < 2 ^ 63) (hb : b < 2 ^ 63) :
    cmpWeight a b = (a : Int) - b := by
  have ha64 : a % 2 ^ 64 = a := Nat.mod_eq_of_lt (by omega)
  have hb64 : b % 2 ^ 64 = b := Nat.mod_eq_of_lt (by omega)
  rw [cmpWeight, toInt64, toInt64, ha64, hb64, if_pos ha, if_pos hb, wrap64]
  have hbl : (b : Int) < 2 ^ 63 := by exact_mod_cast hb
  have hal : (a : Int) < 2 ^ 63 := by exact_mod_cast ha
  have ha0 : (0 : Int) ≤ (a : Int) := Int.natCast_nonneg a
  have hb0 : (0 : Int) ≤ (b : Int) := Int.natCast_nonneg b
  rw [Int.emod_eq_of_lt (by omega) (by omega)]
  omega

/-- With all weights below `2^63`, `slices.MinFunc` returns a config of
minimal weight. -/
theorem minFuncWeight_is_min : ∀ (cfgs : List RRQueueConfig)
    (lighter : RRQueueConfig),
    (∀ c ∈ cfgs, c.weight < 2 ^ 63) →
    minFuncWeight cfgs = some lighter →
    ∀ c ∈ cfgs, lighter.weight ≤ c.weight := by
  have haux : ∀ (l : List RRQueueConfig) (acc : RRQueueConfig),
      (∀ y ∈ l, y.weight < 2 ^ 63) → acc.weight < 2 ^ 63 →
      (l.foldl (fun m x => if cmpWeight x.weight m.weight < 0 then x else m)
          acc).weight ≤ acc.weight
      ∧ ∀ y ∈ l,
        (l.foldl (fun m x => if cmpWeight x.weight m.weight < 0 then x else m)
            acc).weight ≤ y.weight := by
    intro l
    induction l with
    | nil =>
      intro acc _ _
      exact ⟨le_refl _, by simp⟩
    | cons y ys ih =>
      intro acc hl hacc
      have hy : y.weight < 2 ^ 63 := hl y (List.mem_cons_self _ _)
      have hcmp : cmpWeight y.weight acc.weight < 0 ↔ y.weight < acc.weight := by
        rw [cmpWeight_exact y.weight acc.weight hy hacc, sub_neg]
        exact Nat.cast_lt
      rw [List.foldl_cons]
      by_cases hc : cmpWeight y.weight acc.weight < 0
      · rw [if_pos hc]
        have hylt : y.weight < acc.weight := hcmp.mp hc
        obtain ⟨h1, h2⟩ := ih y (fun z hz => hl z (List.mem_cons_of_mem _ hz)) hy
        refine ⟨le_trans h1 (le_of_lt hylt), ?_⟩
        intro z hz
        rcases List.mem_cons.mp hz with rfl | hz'
        · exact h1
        · exact h2 z hz'
      · rw [if_neg hc]
        have hny : ¬y.weight < acc.weight := fun hlt => hc (hcmp.mpr hlt)
        obtain ⟨h1, h2⟩ := ih acc
          (fun z hz => hl z (List.mem_cons_of_mem _ hz)) hacc
        refine ⟨h1, ?_⟩
        intro z hz
        rcases List.mem_cons.mp hz with rfl | hz'
        · omega
        · exact h2 z hz'
  intro cfgs lighter hw h
  cases cfgs with
  | nil => cases h
  | cons x rest =>
    rw [minFuncWeight] at h
    injection h with h
    intro c hc
    obtain ⟨h1, h2⟩ := haux rest x
      (fun z hz => hw z (List.mem_cons_of_mem _ hz))
      (hw x (List.mem_cons_self _ _))
    rcases List.mem_cons.mp hc with rfl | hc'
    · exact h ▸ h1
    · exact h ▸ h2 c hc'

/-- C6 (amended): `NewRoundRobinReader` keeps each config's name and
weight, initializes every `BindingsRead` to 0, and assigns the quota
`maximumBindingsOf w lighter.weight` — the binary64 evaluation of
`math.Ceil(float64(w)/float64(min) * 10)` pushed through the Go `int`
conversion.  The `slices.MinFunc` result is a config of minimal weight
whenever all weights are below `2^63`; the quota of the lightest queue
is exactly `MinimumBindings = 10`; the quota agrees with the exact
ceiling `⌈10·w/min⌉` in the exactly divisible small-weight regime; when
the `math.Ceil` value does not fit in `int64` the stored quota is the
out-of-range conversion result `-2^63` (gc/amd64); and a zero lightest
weight aborts construction. -/
theorem roundRobin_quota_construction :
    (∀ (cfgs : List RRQueueConfig) (lighter : RRQueueConfig),
      minFuncWeight cfgs = some lighter → 1 ≤ lighter.weight →
      ∃ st, NewRoundRobinReader cfgs = some st
        ∧ st.length = cfgs.length
        ∧ ∀ k, k < cfgs.length →
            (st.getD k default).name = (cfgs.getD k default).name
            ∧ (st.getD k default).weight = (cfgs.getD k default).weight
            ∧ (st.getD k default).maximumBindings
                = maximumBindingsOf (cfgs.getD k default).weight lighter.weight
            ∧ (st.getD k default).bindingsRead = 0)
    ∧ (∀ (cfgs : List RRQueueConfig) (lighter : RRQueueConfig),
        (∀ c ∈ cfgs, c.weight < 2 ^ 63) →
        minFuncWeight cfgs = some lighter →
        lighter ∈ cfgs ∧ ∀ c ∈ cfgs, lighter.weight ≤ c.weight)
    ∧ (∀ m, 1 ≤ m → m < 2 ^ 64 → maximumBindingsOf m m = MinimumBindings)
    ∧ (∀ w m, 1 ≤ m → m ≤ w → w < 2 ^ 53 → m ∣ w →
        MinimumBindings * (w / m) < 2 ^ 53 →
        maximumBindingsOf w m = MinimumBindings * (w / m))
    ∧ (∀ w m, 2 ^ 63 ≤ maximumBindingsCeil w m →
        maximumBindingsOf w m = -(2 ^ 63))
    ∧ (∀ (cfgs : List RRQueueConfig) (lighter : RRQueueConfig),
        minFuncWeight cfgs = some lighter → lighter.weight = 0 →
        NewRoundRobinReader cfgs = none) := by
  refine ⟨?_, ?_, ?_, ?_, ?_, ?_⟩
  · intro cfgs lighter hlit hw1
    have hlnz : ¬lighter.weight = 0 := by omega
    refine ⟨cfgs.map fun c =>
        { name := c.name, weight := c.weight, queue := c.queue,
          maximumBindings := maximumBindingsOf c.weight lighter.weight,
          bindingsRead := 0 }, ?_, by rw [List.length_map], ?_⟩
    · simp only [NewRoundRobinReader, hlit]
      rw [if_neg hlnz]
    · intro k hk
      rw [getD_map_ecfg _ cfgs k hk]
      exact ⟨rfl, rfl, rfl, rfl⟩
  · intro cfgs lighter hw hlit
    exact ⟨minFuncWeight_mem cfgs lighter hlit,
      minFuncWeight_is_min cfgs lighter hw hlit⟩
  · intro m h1 h2
    exact maximumBindingsOf_self m h1 h2
  · intro w m h1 h2 h3 h4 h5
    exact maximumBindingsOf_exact w m h1 h2 h3 h4 h5
  · intro w m h
    exact maximumBindingsOf_out_of_range w m h
  · intro cfgs lighter hlit hz
    simp only [NewRoundRobinReader, hlit]
    rw [if_pos hz]

set_option maxRecDepth 100000 in
/-- C6 counterexample: with weights 1 and `2^53 + 1` the stored quota of
the heavy queue is 90071992547409920 (the value is in `int64` range, so
the `int` conversion is the identity), while the exact ceiling
`⌈10·(2^53+1)/1⌉` is 90071992547409930: the float64 computation loses
the low bit of the weight. -/
theorem roundRobin_quota_not_exact_ceiling :
    (NewRoundRobinReader
        [{ name := "a", weight := 1, queue := [] },
         { name := "b", weight := 2 ^ 53 + 1, queue := [] }]).map
        (fun st => (st.getD 1 default).maximumBindings)
      = some 90071992547409920
    ∧ (MinimumBindings * (2 ^ 53 + 1) + 1 - 1) / 1 = 90071992547409930 := by
  constructor
  · decide
  · decide

/-- The two-queue configuration for the C6 witness. -/
def c6cfgs : List RRQueueConfig :=
  [{ name := "a", weight := 2, queue := [] },
   { name := "b", weight := 6, queue := [] }]

set_option maxRecDepth 100000 in
/-- Witness for C6: weights 2 and 6 build a reader whose quotas follow
the float model with zeroed counters; the lightest quota is exactly 10;
the 6-to-2 quota is the exact ceiling 30; the weight-`2^62` quota
overflows `int64` and is stored as `-2^63`; a zero-weight config
aborts. -/
theorem roundRobin_quota_construction_witness :
    (∃ st, NewRoundRobinReader c6cfgs = some st
      ∧ st.length = c6cfgs.length
      ∧ ∀ k, k < c6cfgs.length →
          (st.getD k default).name = (c6cfgs.getD k default).name
          ∧ (st.getD k default).weight = (c6cfgs.getD k default).weight
          ∧ (st.getD k default).maximumBindings
              = maximumBindingsOf (c6cfgs.getD k default).weight 2
          ∧ (st.getD k default).bindingsRead = 0)
    ∧ maximumBindingsOf 2 2 = MinimumBindings
    ∧ maximumBindingsOf 6 2 = MinimumBindings * (6 / 2)
    ∧ maximumBindingsOf (2 ^ 62) 1 = -(2 ^ 63)
    ∧ NewRoundRobinReader [{ name := "z", weight := 0, queue := [] }] = none := by
  refine ⟨?_, ?_, ?_, ?_, ?_⟩
  · exact roundRobin_quota_construction.1 c6cfgs
      { name := "a", weight := 2, queue := [] } (by decide) (by decide)
  · exact roundRobin_quota_construction.2.2.1 2 (by norm_num) (by norm_num)
  · exact roundRobin_quota_construction.2.2.2.1 6 2 (by norm_num) (by norm_num)
      (by norm_num) (by norm_num) (by norm_num [MinimumBindings])
  · exact roundRobin_quota_construction.2.2.2.2.1 (2 ^ 62) 1 (by decide)
  · exact roundRobin_quota_construction.2.2.2.2.2
      [{ name := "z", weight := 0, queue := [] }]
      { name := "z", weight := 0, queue := [] } rfl rfl

/-! ## Uniform reader: `UniformReader` (`pkg/queue`)

`Read` copies the candidate configs, draws a queue by weighted random
selection (`rand.Intn(total) + 1` walked over the prefix sums of the
weights, both computed in Go `int` arithmetic), pops the selected queue,
removes it from the candidate copy when the pop returns `nil`, and
retries, at most `len(configs)` times.  The random draws are supplied to
the model as an oracle list. -/

/-- The `QueueConfig` consumed by `UniformReader` (the `QueueRef`
variant); the queue is its heap state. -/
structure UCfg where
  schedulerName : String
  weight : Nat
  maxSize : Nat
  queue : List PlacementRequest
deriving DecidableEq, Repr

instance : Inhabited UCfg :=
  ⟨{ schedulerName := "", weight := 0, maxSize := 0, queue := [] }⟩

/-- The sum of the candidate weights in exact arithmetic. -/
def totalWeight (cfgs : List UCfg) : Nat :=
  (cfgs.map fun c => c.weight).sum

/-- The `total` accumulated by `UniformReader.next` with Go `int`
(wrap-around) arithmetic. -/
def utotal (cfgs : List UCfg) : Int :=
  cfgs.foldl (fun t c => wrap64 (t + toInt64 c.weight)) 0

/-- The prefix-sum walk of `UniformReader.next`: the first index at
which the running sum reaches the selected value; `none` models the
`panic("no queue selected, this should never happen")` fall-through. -/
def unextGo (cfgs : List UCfg) (v : Int) (sum : Int) : Option Nat :=
  match cfgs with
  | [] => none
  | c :: rest =>
    if v ≤ wrap64 (sum + toInt64 c.weight) then some 0
    else (unextGo rest v (wrap64 (sum + toInt64 c.weight))).map (fun i => i + 1)

/-- Result of a `UniformReader.Read` call. -/
inductive UReadResult where
  /-- A request was popped from the candidate at index `qidx`. -/
  | found (pr : PlacementRequest) (qidx : Nat)
  /-- The candidate rounds were exhausted: the `nil` return. -/
  | nilRead
  /-- Either `rand.Intn` with a non-positive total or the `next`
  fall-through panic. -/
  | panicked
  /-- The draw oracle ran out (never happens with one draw per round). -/
  | outOfDraws
deriving DecidableEq, Repr

/-- `UniformReader.Read` on the candidate copy: at most `fuel`
(`nrconfigs`) rounds; each round draws the next oracle value `v`
(`rand.Intn(total) + 1`, panicking when `total ≤ 0`), walks the prefix
sums, pops the selected queue's heap, and deletes the candidate when the
pop returns `nil`. -/
def uread : Nat → List UCfg → List Int → UReadResult
  | 0, _, _ => .nilRead
  | fuel + 1, cands, draws =>
    if 0 < utotal cands then
      match draws with
      | [] => .outOfDraws
      | v :: rest =>
        match unextGo cands v 0 with
        | none => .panicked
        | some qidx =>
          match queuePop (cands.getD qidx default).queue with
          | some (pr, _) => .found pr qidx
          | none => uread fuel (cands.eraseIdx qidx) rest
    else .panicked

/-! ### Exact evaluation of the `int` arithmetic -/

theorem toInt64_exact (w : Nat) (h : w < 2 ^ 63) : toInt64 w = (w : Int) := by
  have h64 : w % 2 ^ 64 = w := Nat.mod_eq_of_lt (by omega)
  rw [toInt64, h64, if_pos h]

theorem wrap64_id (z : Int) (h1 : -(2 ^ 63) ≤ z) (h2 : z < 2 ^ 63) :
    wrap64 z = z := by
  rw [wrap64, Int.emod_eq_of_lt (by omega) (by omega)]
  omega

theorem utotal_exact_aux : ∀ (cfgs : List UCfg) (s : Nat),
    s + totalWeight cfgs < 2 ^ 63 →
    cfgs.foldl (fun t c => wrap64 (t + toInt64 c.weight)) (s : Int)
      = ((s + totalWeight cfgs : Nat) : Int) := by
  intro cfgs
  induction cfgs with
  | nil =>
    intro s h
    simp [totalWeight]
  | cons c rest ih =>
    intro s h
    have htot : totalWeight (c :: rest) = c.weight + totalWeight rest := by
      simp [totalWeight]
    rw [htot] at h
    have hw : c.weight < 2 ^ 63 := by omega
    rw [List.foldl_cons, toInt64_exact c.weight hw]
    have hcast : (s : Int) + (c.weight : Int) = ((s + c.weight : Nat) : Int) := by
      push_cast
      ring
    rw [hcast, wrap64_id _ (by omega) (by exact_mod_cast
      (by omega : s + c.weight < 2 ^ 63)), ih (s + c.weight) (by omega)]
    congr 1
    rw [htot]
    ring

/-- Under the no-overflow bound, `total` is the exact weight sum. -/
theorem utotal_exact (cfgs : List UCfg) (h : totalWeight cfgs < 2 ^ 63) :
    utotal cfgs = (totalWeight cfgs : Int) := by
  have haux := utotal_exact_aux cfgs 0 (by omega)
  simpa [utotal] using haux

theorem totalWeight_take_le (l : List UCfg) (k : Nat) :
    totalWeight (l.take k) ≤ totalWeight l := by
  conv_rhs => rw [← List.take_append_drop k l]
  rw [totalWeight, totalWeight, List.map_append, List.sum_append]
  omega

theorem totalWeight_take_succ (l : List UCfg) (i : Nat) (h : i < l.length) :
    totalWeight (l.take (i + 1))
      = totalWeight (l.take i) + (l.getD i default).weight := by
  rw [← List.take_concat_get l i h, List.concat_eq_append, totalWeight,
    totalWeight, List.map_append, List.sum_append]
  simp [List.getD_eq_getElem?_getD, List.getElem?_eq_getElem h]

/-- Characterization of the prefix-sum walk: under the no-overflow
bound and with the running sum strictly below the selected value, the
walk returns exactly the index whose prefix-sum interval contains the
value, and falls through (panics) exactly when the value exceeds the
whole sum. -/
theorem unextGo_spec : ∀ (cfgs : List UCfg) (v : Int) (s : Nat),
    s + totalWeight cfgs < 2 ^ 63 → (s : Int) < v →
    (∀ i, unextGo cfgs v (s : Int) = some i ↔
      i < cfgs.length
      ∧ ((s + totalWeight (cfgs.take i) : Nat) : Int) < v
      ∧ v ≤ ((s + totalWeight (cfgs.take (i + 1)) : Nat) : Int))
    ∧ (unextGo cfgs v (s : Int) = none
        ↔ ((s + totalWeight cfgs : Nat) : Int) < v) := by
  intro cfgs
  induction cfgs with
  | nil =>
    intro v s hb hs
    constructor
    · intro i
      constructor
      · intro h
        cases h
      · rintro ⟨hi, -, -⟩
        exact absurd hi (by simp)
    · constructor
      · intro _
        simpa [totalWeight] using hs
      · intro _
        rfl
  | cons c rest ih =>
    intro v s hb hs
    have htot : totalWeight (c :: rest) = c.weight + totalWeight rest := by
      simp [totalWeight]
    rw [htot] at hb
    have hw : c.weight < 2 ^ 63 := by omega
    have hstep : wrap64 ((s : Int) + toInt64 c.weight)
        = ((s + c.weight : Nat) : Int) := by
      rw [toInt64_exact c.weight hw]
      have hcast : (s : Int) + (c.weight : Int) = ((s + c.weight : Nat) : Int) := by
        push_cast
        ring
      rw [hcast]
      exact wrap64_id _ (by omega)
        (by exact_mod_cast (by omega : s + c.weight < 2 ^ 63))
    have htake1 : totalWeight ((c :: rest).take 1) = c.weight := by
      simp [totalWeight]
    by_cases hv : v ≤ ((s + c.weight : Nat) : Int)
    · have hunfold : unextGo (c :: rest) v (s : Int) = some 0 := by
        simp only [unextGo, hstep, if_pos hv]
      constructor
      · intro i
        rw [hunfold]
        constructor
        · intro h
          injection h with h
          subst h
          refine ⟨by simp, ?_, ?_⟩
          · simpa [totalWeight] using hs
          · rw [htake1]
            exact hv
        · rintro ⟨hi, h1, h2⟩
          cases i with
          | zero => rfl
          | succ j =>
            exfalso
            rw [List.take_succ_cons] at h1
            have hsplit : totalWeight (c :: rest.take j)
                = c.weight + totalWeight (rest.take j) := by
              simp [totalWeight]
            rw [hsplit] at h1
            omega
      · rw [hunfold]
        constructor
        · intro h
          cases h
        · intro h
          exfalso
          rw [htot] at h
          omega
    · have hs2 : ((s + c.weight : Nat) : Int) < v := not_le.mp hv
      obtain ⟨ih1, ih2⟩ := ih v (s + c.weight) (by omega) hs2
      have hunfold : unextGo (c :: rest) v (s : Int)
          = (unextGo rest v ((s + c.weight : Nat) : Int)).map (fun i => i + 1) := by
        simp only [unextGo, hstep, if_neg hv]
      constructor
      · intro i
        rw [hunfold]
        cases i with
        | zero =>
          constructor
          · intro h
            exfalso
            obtain ⟨j, -, hj⟩ := Option.map_eq_some'.mp h
            omega
          · rintro ⟨-, -, h2⟩
            exfalso
            rw [htake1] at h2
            omega
        | succ j =>
          rw [Option.map_eq_some']
          have hsplitj : ∀ k, totalWeight ((c :: rest).take (k + 1))
              = c.weight + totalWeight (rest.take k) := by
            intro k
            rw [List.take_succ_cons]
            simp [totalWeight]
          constructor
          · rintro ⟨k, hk, hkj⟩
            have hkj' : k = j := by omega
            rw [hkj'] at hk
            obtain ⟨hjl, hj1, hj2⟩ := (ih1 j).mp hk
            refine ⟨by simpa using Nat.succ_lt_succ hjl, ?_, ?_⟩
            · rw [hsplitj j]
              have heq : s + (c.weight + totalWeight (rest.take j))
                  = s + c.weight + totalWeight (rest.take j) := by ring
              rw [heq]
              exact hj1
            · rw [hsplitj (j + 1)]
              have heq : s + (c.weight + totalWeight (rest.take (j + 1)))
                  = s + c.weight + totalWeight (rest.take (j + 1)) := by ring
              rw [heq]
              exact hj2
          · rintro ⟨hi, h1, h2⟩
            refine ⟨j, (ih1 j).mpr ⟨by simpa using hi, ?_, ?_⟩, rfl⟩
            · rw [hsplitj j] at h1
              have heq : s + c.weight + totalWeight (rest.take j)
                  = s + (c.weight + totalWeight (rest.take j)) := by ring
              rw [heq]
              exact h1
            · rw [hsplitj (j + 1)] at h2
              have heq : s + c.weight + totalWeight (rest.take (j + 1))
                  = s + (c.weight + totalWeight (rest.take (j + 1))) := by ring
              rw [heq]
              exact h2
      · rw [hunfold, Option.map_eq_none', ih2, htot]
        have heq : s + c.weight + totalWeight rest
            = s + (c.weight + totalWeight rest) := by ring
        rw [heq]

theorem unextGo_spec0 (cfgs : List UCfg) (v : Int)
    (hb : totalWeight cfgs < 2 ^ 63) (hv : 0 < v) :
    (∀ i, unextGo cfgs v 0 = some i ↔
      i < cfgs.length
      ∧ (totalWeight (cfgs.take i) : Int) < v
      ∧ v ≤ (totalWeight (cfgs.take (i + 1)) : Int))
    ∧ (unextGo cfgs v 0 = none ↔ (totalWeight cfgs : Int) < v) := by
  have h := unextGo_spec cfgs v 0 (by omega) (by exact_mod_cast hv)
  simpa using h

theorem totalWeight_eraseIdx_le (l : List UCfg) (i : Nat) :
    totalWeight (l.eraseIdx i) ≤ totalWeight l :=
  List.Sublist.sum_le_sum
    (List.Sublist.map _ (List.eraseIdx_sublist l i)) (by simp)

theorem ucfg_getD_mem (l : List UCfg) (i : Nat) (h : i < l.length) :
    l.getD i default ∈ l := by
  have he : l.getD i default = l[i] := by
    simp [List.getD_eq_getElem?_getD, List.getElem?_eq_getElem h]
  rw [he]
  exact List.getElem_mem h

/-- Exactly `weight_i` of the `total` equally likely draw values select
candidate `i`. -/
theorem unextGo_count (cfgs : List UCfg) (i : Nat)
    (hb : totalWeight cfgs < 2 ^ 63) (hi : i < cfgs.length) :
    ((Finset.Icc 1 (totalWeight cfgs)).filter
        (fun v : Nat => unextGo cfgs (v : Int) 0 = some i)).card
      = (cfgs.getD i default).weight := by
  have hchar : ∀ v : Nat, 1 ≤ v →
      (unextGo cfgs (v : Int) 0 = some i ↔
        i < cfgs.length
        ∧ (totalWeight (cfgs.take i) : Int) < (v : Int)
        ∧ (v : Int) ≤ (totalWeight (cfgs.take (i + 1)) : Int)) :=
    fun v hv => (unextGo_spec0 cfgs (v : Int) hb (by exact_mod_cast hv)).1 i
  have hP1 : totalWeight (cfgs.take (i + 1)) ≤ totalWeight cfgs :=
    totalWeight_take_le cfgs (i + 1)
  have hset : (Finset.Icc 1 (totalWeight cfgs)).filter
        (fun v : Nat => unextGo cfgs (v : Int) 0 = some i)
      = Finset.Ioc (totalWeight (cfgs.take i))
          (totalWeight (cfgs.take (i + 1))) := by
    ext v
    simp only [Finset.mem_filter, Finset.mem_Icc, Finset.mem_Ioc]
    constructor
    · rintro ⟨⟨hv1, hv2⟩, hsel⟩
      obtain ⟨-, h1, h2⟩ := (hchar v hv1).mp hsel
      exact ⟨by exact_mod_cast h1, by exact_mod_cast h2⟩
    · rintro ⟨h1, h2⟩
      have hv1 : 1 ≤ v := by omega
      refine ⟨⟨hv1, by omega⟩, (hchar v hv1).mpr ⟨hi, ?_, ?_⟩⟩
      · exact_mod_cast h1
      · exact_mod_cast h2
  rw [hset, Nat.card_Ioc, totalWeight_take_succ cfgs i hi]
  omega

/-- With all candidate queues non-empty and a valid draw, the first
round already returns a request, popped from the queue whose prefix-sum
interval contains the draw. -/
theorem uread_found (cands : List UCfg) (v : Int) (rest : List Int)
    (fuel : Nat) (hne : ∀ c ∈ cands, c.queue ≠ [])
    (hb : totalWeight cands < 2 ^ 63)
    (hv1 : 1 ≤ v) (hv2 : v ≤ utotal cands) :
    ∃ i pr q', unextGo cands v 0 = some i
      ∧ i < cands.length
      ∧ queuePop (cands.getD i default).queue = some (pr, q')
      ∧ uread (fuel + 1) cands (v :: rest) = .found pr i
      ∧ pr ∈ (cands.getD i default).queue := by
  have hut : utotal cands = (totalWeight cands : Int) := utotal_exact cands hb
  have hpos : 0 < utotal cands := lt_of_lt_of_le Int.zero_lt_one (le_trans hv1 hv2)
  have hspec := unextGo_spec0 cands v hb (by omega)
  cases hsel : unextGo cands v 0 with
  | none =>
    exfalso
    have h := hspec.2.mp hsel
    rw [hut] at hv2
    omega
  | some i =>
    obtain ⟨hi, -, -⟩ := (hspec.1 i).mp hsel
    have hqne : (cands.getD i default).queue ≠ [] :=
      hne _ (ucfg_getD_mem cands i hi)
    cases hpop : queuePop (cands.getD i default).queue with
    | none => exact absurd ((queuePop_none_iff _).mp hpop) hqne
    | some pq =>
      obtain ⟨pr, q'⟩ := pq
      refine ⟨i, pr, q', rfl, hi, hpop, ?_, (queuePop_shape hpop).1⟩
      rw [uread, if_pos hpos]
      simp only [hsel, hpop]

/-- A candidate whose queue pops `nil` is removed from the candidate
copy for the remainder of the `Read` call. -/
theorem uread_delete_step (fuel : Nat) (cands : List UCfg) (v : Int)
    (rest : List Int) (i : Nat) (hpos : 0 < utotal cands)
    (hsel : unextGo cands v 0 = some i)
    (hpop : queuePop (cands.getD i default).queue = none) :
    uread (fuel + 1) cands (v :: rest) = uread fuel (cands.eraseIdx i) rest := by
  rw [uread, if_pos hpos]
  simp only [hsel, hpop]

/-- With every candidate queue empty, each round deletes one candidate
and `Read` returns `nil` once the rounds are exhausted. -/
theorem uread_all_empty : ∀ (fuel : Nat) (cands : List UCfg),
    fuel ≤ cands.length →
    (∀ c ∈ cands, c.queue = []) →
    (∀ c ∈ cands, 1 ≤ c.weight) →
    totalWeight cands < 2 ^ 63 →
    uread fuel cands (List.replicate fuel 1) = .nilRead := by
  intro fuel
  induction fuel with
  | zero =>
    intro cands _ _ _ _
    rw [uread]
  | succ fuel ih =>
    intro cands hlen hq hw hb
    obtain ⟨c0, cs, rfl⟩ := List.exists_cons_of_ne_nil
      (show cands ≠ [] by
        intro h
        rw [h] at hlen
        simp at hlen)
    have ht : totalWeight (c0 :: cs) = c0.weight + totalWeight cs := by
      simp [totalWeight]
    have htpos : 1 ≤ totalWeight (c0 :: cs) := by
      have := hw c0 (List.mem_cons_self _ _)
      omega
    have hpos : 0 < utotal (c0 :: cs) := by
      rw [utotal_exact _ hb]
      exact_mod_cast htpos
    have hspec := unextGo_spec0 (c0 :: cs) 1 hb Int.zero_lt_one
    cases hsel : unextGo (c0 :: cs) 1 0 with
    | none =>
      exfalso
      have h := hspec.2.mp hsel
      have hlt : totalWeight (c0 :: cs) < 1 := by exact_mod_cast h
      omega
    | some i =>
      obtain ⟨hi, -, -⟩ := (hspec.1 i).mp hsel
      have hqe : ((c0 :: cs).getD i default).queue = [] :=
        hq _ (ucfg_getD_mem _ i hi)
      have hpop : queuePop ((c0 :: cs).getD i default).queue = none := by
        rw [hqe]
        rfl
      rw [List.replicate_succ, uread_delete_step fuel _ 1 _ i hpos hsel hpop]
      refine ih ((c0 :: cs).eraseIdx i) ?_ ?_ ?_ ?_
      · rw [List.length_eraseIdx, if_pos hi]
        omega
      · intro x hx
        exact hq x (List.mem_of_mem_eraseIdx hx)
      · intro x hx
        exact hw x (List.mem_of_mem_eraseIdx hx)
      · exact lt_of_le_of_lt (totalWeight_eraseIdx_le _ i) hb

/-- C5 (amended): in the overflow-free regime (weights summing below
`2^63`, so the Go `int` conversions are exact) the weighted selection
behaves as specified: a draw `v ∈ [1, Σ weight]` selects index `i`
exactly when `Σ_{j<i} w_j < v ≤ Σ_{j≤i} w_j`; exactly `w_i` of the
`Σ weight` equally likely draws select candidate `i`; with all queues
non-empty the first draw already decides which queue the returned
request is popped from; a queue popping `nil` is deleted from the
candidate copy for the remainder of the call; and with all queues empty
the call returns `nil` after at most `len(configs)` rounds. -/
theorem uniformReader_weighted_selection :
    (∀ (cfgs : List UCfg) (v : Int) (i : Nat),
      totalWeight cfgs < 2 ^ 63 → 0 < v →
      (unextGo cfgs v 0 = some i ↔
        i < cfgs.length
        ∧ (totalWeight (cfgs.take i) : Int) < v
        ∧ v ≤ (totalWeight (cfgs.take (i + 1)) : Int)))
    ∧ (∀ (cfgs : List UCfg) (i : Nat),
        totalWeight cfgs < 2 ^ 63 → i < cfgs.length →
        ((Finset.Icc 1 (totalWeight cfgs)).filter
            (fun v : Nat => unextGo cfgs (v : Int) 0 = some i)).card
          = (cfgs.getD i default).weight)
    ∧ (∀ (cands : List UCfg) (v : Int) (rest : List Int) (fuel : Nat),
        (∀ c ∈ cands, c.queue ≠ []) →
        totalWeight cands < 2 ^ 63 →
        1 ≤ v → v ≤ utotal cands →
        ∃ i pr q', unextGo cands v 0 = some i
          ∧ i < cands.length
          ∧ queuePop (cands.getD i default).queue = some (pr, q')
          ∧ uread (fuel + 1) cands (v :: rest) = .found pr i
          ∧ pr ∈ (cands.getD i default).queue)
    ∧ (∀ (fuel : Nat) (cands : List UCfg) (v : Int) (rest : List Int) (i : Nat),
        0 < utotal cands →
        unextGo cands v 0 = some i →
        queuePop (cands.getD i default).queue = none →
        uread (fuel + 1) cands (v :: rest) = uread fuel (cands.eraseIdx i) rest)
    ∧ (∀ (fuel : Nat) (cands : List UCfg),
        fuel ≤ cands.length →
        (∀ c ∈ cands, c.queue = []) →
        (∀ c ∈ cands, 1 ≤ c.weight) →
        totalWeight cands < 2 ^ 63 →
        uread fuel cands (List.replicate fuel 1) = .nilRead) := by
  refine ⟨?_, ?_, ?_, ?_, ?_⟩
  · intro cfgs v i hb hv
    exact (unextGo_spec0 cfgs v hb hv).1 i
  · intro cfgs i hb hi
    exact unextGo_count cfgs i hb hi
  · intro cands v rest fuel hne hb hv1 hv2
    exact uread_found cands v rest fuel hne hb hv1 hv2
  · intro fuel cands v rest i hpos hsel hpop
    exact uread_delete_step fuel cands v rest i hpos hsel hpop
  · intro fuel cands hlen hq hw hb
    exact uread_all_empty fuel cands hlen hq hw hb

/-- A single candidate of positive weight `2^63` with a non-empty
queue. -/
def c5overflow : UCfg :=
  { schedulerName := "s", weight := 2 ^ 63, maxSize := 1,
    queue := [prWithTs 1] }

/-- C5 counterexample: a single candidate of positive weight `2^63`
overflows the `int` conversion in `next`: the accumulated total is the
negative value `-2^63`, so `rand.Intn(total)` panics and `Read` performs
no weighted draw at all, despite the queue being non-empty. -/
theorem uniformReader_overflow_counterexample :
    utotal [c5overflow] = -(2 ^ 63)
    ∧ uread 1 [c5overflow] [1] = .panicked := by
  constructor
  · decide
  · decide

/-- Concrete candidates for the C5 witness: weights 2 and 3 with
non-empty queues. -/
def c5cands : List UCfg :=
  [{ schedulerName := "a", weight := 2, maxSize := 1, queue := [prWithTs 1] },
   { schedulerName := "b", weight := 3, maxSize := 1, queue := [prWithTs 2] }]

/-- The same candidates with emptied queues. -/
def c5empty : List UCfg :=
  [{ schedulerName := "a", weight := 2, maxSize := 1, queue := [] },
   { schedulerName := "b", weight := 3, maxSize := 1, queue := [] }]

/-- Witness for C5: on weights 2 and 3, draw 4 falls into the second
queue's interval (2 < 4 ≤ 5); exactly 2 of the 5 draw values select the
first queue; with both queues non-empty a valid draw returns a popped
request; and with both queues empty the read returns `nil`. -/
theorem uniformReader_weighted_selection_witness :
    (unextGo c5cands 4 0 = some 1 ↔
      1 < c5cands.length
      ∧ (totalWeight (c5cands.take 1) : Int) < 4
      ∧ (4 : Int) ≤ (totalWeight (c5cands.take 2) : Int))
    ∧ ((Finset.Icc 1 (totalWeight c5cands)).filter
        (fun v : Nat => unextGo c5cands (v : Int) 0 = some 0)).card
      = (c5cands.getD 0 default).weight
    ∧ (∃ i pr q', unextGo c5cands 4 0 = some i
        ∧ i < c5cands.length
        ∧ queuePop (c5cands.getD i default).queue = some (pr, q')
        ∧ uread 2 c5cands [4, 1] = .found pr i
        ∧ pr ∈ (c5cands.getD i default).queue)
    ∧ uread 2 c5empty (List.replicate 2 1) = .nilRead := by
  refine ⟨?_, ?_, ?_, ?_⟩
  · exact uniformReader_weighted_selection.1 c5cands 4 1 (by decide) (by decide)
  · exact uniformReader_weighted_selection.2.1 c5cands 0 (by decide) (by decide)
  · exact uniformReader_weighted_selection.2.2.1 c5cands 4 [1] 1
      (by decide) (by decide) (by decide) (by decide)
  · exact uniformReader_weighted_selection.2.2.2.2 2 c5empty
      (by decide) (by decide) (by decide) (by decide)
